import Mathlib

/-!
# Verification of the PersonaLife journaling application core logic

This development embeds the logic of `src/App.jsx` (a React journaling
application) in Lean 4 and proves properties of its retry/backoff helper,
AI gain estimator fallback, stat aggregator, calendar filter, localStorage
initializer, and JSON export/import codec.

JavaScript values exchanged with `JSON.parse` / `JSON.stringify` are
modelled by the `Json` inductive below.  Numbers are modelled as integers:
the application only ever produces and consumes integral JSON numbers
(attribute totals and gain points), and binary floating point is outside
the scope of this embedding, so the modelled `JSON.parse` accepts exactly
the integer numerals.  Strings are Lean strings (sequences of Unicode
scalar values), matching well-formed JavaScript strings.
-/

set_option autoImplicit false

namespace PersonaLife

mutual
/-- A JSON value, as produced by `JSON.parse`.  Objects are ordered field
lists (JavaScript objects preserve insertion order); `JsonList` and
`JsonFields` are specialised list types so that all recursions over a
value are structural. -/
inductive Json where
  | null
  | bool (b : Bool)
  | num (n : Int)
  | str (s : String)
  | arr (xs : JsonList)
  | obj (fs : JsonFields)
  deriving DecidableEq
inductive JsonList where
  | nil
  | cons (hd : Json) (tl : JsonList)
  deriving DecidableEq
inductive JsonFields where
  | nil
  | cons (k : String) (v : Json) (tl : JsonFields)
  deriving DecidableEq
end

/-- JavaScript truthiness of a JSON value: `null`, `false`, `0` and the
empty string are falsy; every object and array is truthy. -/
def Json.truthy : Json → Bool
  | .null => false
  | .bool b => b
  | .num n => n ≠ 0
  | .str s => s ≠ ""
  | .arr _ => true
  | .obj _ => true

/-- First field with the given key (JavaScript objects have unique keys,
so this is the only candidate). -/
def JsonFields.get : JsonFields → String → Option Json
  | .nil, _ => none
  | .cons k v tl, key => if k = key then some v else tl.get key

/-- Whether a field list contains the given key. -/
def JsonFields.hasKey : JsonFields → String → Bool
  | .nil, _ => false
  | .cons k _ tl, key => if k = key then true else tl.hasKey key

/-- JavaScript property assignment `o[k] = v`: an existing key keeps its
position and gets the new value, a new key is appended.  Used to model how
`JSON.parse` builds an object from its members. -/
def JsonFields.set : JsonFields → String → Json → JsonFields
  | .nil, key, v => .cons key v .nil
  | .cons k w tl, key, v =>
    if k = key then .cons k v tl else .cons k w (tl.set key v)

/-- Concatenation of field lists. -/
def JsonFields.append : JsonFields → JsonFields → JsonFields
  | .nil, gs => gs
  | .cons k v tl, gs => .cons k v (tl.append gs)

/-- `result.x`, the JavaScript property read used by the app on parsed
JSON data.  On an object it looks the key up (`none` = `undefined`); on
any other non-null value it yields `undefined`.  On `null` the real read
throws a `TypeError`, but at every use site in the source that exception
is caught by the same handler as the `undefined` case, so `null` is also
modelled as `none`. -/
def Json.field : Json → String → Option Json
  | .obj fs, k => fs.get k
  | _, _ => none

/-- `i`-th element of a `JsonList`. -/
def JsonList.get : JsonList → Nat → Option Json
  | .nil, _ => none
  | .cons x _, 0 => some x
  | .cons _ tl, i + 1 => tl.get i

/-- `a?.[i]`, indexing into a parsed JSON array. -/
def Json.index : Json → Nat → Option Json
  | .arr xs, i => xs.get i
  | _, _ => none

/-- Truthiness of a possibly-`undefined` JavaScript value. -/
def truthyOpt : Option Json → Bool
  | none => false
  | some j => j.truthy

mutual
/-- Well-formedness of a parsed-from-JavaScript value: every object has
pairwise distinct keys (JavaScript objects cannot hold a key twice). -/
def Json.wf : Json → Bool
  | .null => true
  | .bool _ => true
  | .num _ => true
  | .str _ => true
  | .arr xs => xs.wfList
  | .obj fs => fs.wfFields
/-- All elements well-formed. -/
def JsonList.wfList : JsonList → Bool
  | .nil => true
  | .cons x tl => x.wf && tl.wfList
/-- Distinct keys at this level, all values well-formed. -/
def JsonFields.wfFields : JsonFields → Bool
  | .nil => true
  | .cons k v tl => !tl.hasKey k && v.wf && tl.wfFields
end

/-! ## JSON text: a model of `JSON.parse` and `JSON.stringify(·, null, 2)`

The parser follows the JSON grammar (RFC 8259) with two documented
restrictions: numbers are limited to integer numerals (no fraction or
exponent part — the application's data is integral), and `\uXXXX` escapes
in the surrogate range are rejected (Lean strings hold Unicode scalar
values; the serializer only emits `\u00XX` for control characters). -/

/-- JSON insignificant whitespace. -/
def isWs (c : Char) : Bool := c = ' ' || c = '\n' || c = '\t' || c = '\r'

/-- Drop leading whitespace. -/
def skipWs : List Char → List Char
  | [] => []
  | c :: rest => if isWs c then skipWs rest else c :: rest

/-- ASCII decimal digit. -/
def isDigit (c : Char) : Bool := decide (48 ≤ c.toNat) && decide (c.toNat ≤ 57)

/-- Value of a decimal digit character. -/
def digitVal (c : Char) : Nat := c.toNat - 48

/-- Longest leading run of decimal digits, and the remainder. -/
def takeDigits : List Char → List Char × List Char
  | [] => ([], [])
  | c :: rest =>
    if isDigit c then
      let p := takeDigits rest
      (c :: p.1, p.2)
    else ([], c :: rest)

/-- Fold decimal digits onto an accumulator. -/
def digitsToNat (acc : Nat) : List Char → Nat
  | [] => acc
  | c :: rest => digitsToNat (acc * 10 + digitVal c) rest

/-- JSON natural-number literal: `0`, or a nonzero digit followed by
digits (leading zeros are a JSON syntax error). -/
def parseNatLit : List Char → Option (Nat × List Char)
  | [] => none
  | c :: rest =>
    if c = '0' then
      match rest with
      | [] => some (0, [])
      | d :: _ => if isDigit d then none else some (0, rest)
    else if isDigit c then
      let p := takeDigits rest
      some (digitsToNat (digitVal c) p.1, p.2)
    else none

/-- JSON integer literal with optional minus sign. -/
def parseNumLit : List Char → Option (Int × List Char)
  | [] => none
  | c :: rest =>
    if c = '-' then
      match parseNatLit rest with
      | some (n, r) => some (-(n : Int), r)
      | none => none
    else
      match parseNatLit (c :: rest) with
      | some (n, r) => some ((n : Int), r)
      | none => none

/-- Value of a hexadecimal digit character. -/
def hexVal (c : Char) : Option Nat :=
  if isDigit c then some (c.toNat - 48)
  else if decide (97 ≤ c.toNat) && decide (c.toNat ≤ 102) then some (c.toNat - 87)
  else if decide (65 ≤ c.toNat) && decide (c.toNat ≤ 70) then some (c.toNat - 55)
  else none

/-- Prepend a character to the string-content component of a parse
result. -/
def consChar (c : Char) : Option (List Char × List Char) → Option (List Char × List Char)
  | some (cs, r) => some (c :: cs, r)
  | none => none

/-- A `\uXXXX` escape: four hexadecimal digits denoting a Unicode scalar
value (the surrogate range is rejected — the serializer never produces
it, and Lean characters cannot hold it). -/
def parseUnicodeEsc : List Char → Option (Char × List Char)
  | h1 :: h2 :: h3 :: h4 :: rest =>
    match hexVal h1, hexVal h2, hexVal h3, hexVal h4 with
    | some a, some b, some c, some d =>
      let n := a * 4096 + b * 256 + c * 16 + d
      if n < 55296 then some (Char.ofNat n, rest) else none
    | _, _, _, _ => none
  | _ => none

/-- Decode one escape sequence (the characters after a backslash). -/
def parseEsc : List Char → Option (Char × List Char)
  | [] => none
  | e :: rest =>
    if e = '"' then some ('"', rest)
    else if e = '\\' then some ('\\', rest)
    else if e = '/' then some ('/', rest)
    else if e = 'b' then some ('\x08', rest)
    else if e = 'f' then some ('\x0c', rest)
    else if e = 'n' then some ('\n', rest)
    else if e = 'r' then some ('\r', rest)
    else if e = 't' then some ('\t', rest)
    else if e = 'u' then parseUnicodeEsc rest
    else none

/-- Body of a JSON string after the opening quote: decoded characters and
the remainder after the closing quote.  Raw control characters are a
syntax error; escapes are decoded.  The fuel decreases once per decoded
character, so any fuel exceeding the content length suffices; callers
pass their own (length-derived) fuel down. -/
def parseStringBody : Nat → List Char → Option (List Char × List Char)
  | 0, _ => none
  | _ + 1, [] => none
  | fuel + 1, c :: rest =>
    if c = '"' then some ([], rest)
    else if c = '\\' then
      match parseEsc rest with
      | some (d, rest2) => consChar d (parseStringBody fuel rest2)
      | none => none
    else if decide (c.toNat < 32) then none
    else consChar c (parseStringBody fuel rest)

/-- Match an exact literal tail (used for `null`, `true`, `false`). -/
def expectLit : List Char → List Char → Json → Option (Json × List Char)
  | [], s, j => some (j, s)
  | c :: cs, s, j =>
    match s with
    | [] => none
    | d :: rest => if d = c then expectLit cs rest j else none

mutual
/-- Parse one JSON value from input whose leading whitespace has been
skipped.  The fuel argument dominates the nesting depth; `jsonParse`
supplies enough fuel for any input of the given length. -/
def parseValue : Nat → List Char → Option (Json × List Char)
  | 0, _ => none
  | _ + 1, [] => none
  | fuel + 1, c :: rest =>
    if c = 'n' then expectLit ['u', 'l', 'l'] rest Json.null
    else if c = 't' then expectLit ['r', 'u', 'e'] rest (Json.bool true)
    else if c = 'f' then expectLit ['a', 'l', 's', 'e'] rest (Json.bool false)
    else if c = '"' then
      match parseStringBody fuel rest with
      | some (cs, r) => some (Json.str (String.mk cs), r)
      | none => none
    else if c = '[' then
      match skipWs rest with
      | [] => none
      | d :: r2 =>
        if d = ']' then some (Json.arr .nil, r2)
        else
          match parseElems fuel (d :: r2) with
          | some (xs, r3) => some (Json.arr xs, r3)
          | none => none
    else if c = '\x7b' then
      match skipWs rest with
      | [] => none
      | d :: r2 =>
        if d = '\x7d' then some (Json.obj .nil, r2)
        else
          match parseFields fuel .nil (d :: r2) with
          | some (fs, r3) => some (Json.obj fs, r3)
          | none => none
    else
      match parseNumLit (c :: rest) with
      | some (n, r) => some (Json.num n, r)
      | none => none

/-- Parse the comma-separated elements of a nonempty array, consuming the
closing bracket.  Input arrives with leading whitespace skipped. -/
def parseElems : Nat → List Char → Option (JsonList × List Char)
  | 0, _ => none
  | fuel + 1, s =>
    match parseValue fuel s with
    | none => none
    | some (j, r) =>
      match skipWs r with
      | [] => none
      | d :: r2 =>
        if d = ']' then some (.cons j .nil, r2)
        else if d = ',' then
          match parseElems fuel (skipWs r2) with
          | some (xs, r3) => some (.cons j xs, r3)
          | none => none
        else none

/-- Parse the members of a nonempty object, consuming the closing brace.
Members are accumulated with JavaScript property assignment, so a
duplicated key keeps its first position and its last value, as in
`JSON.parse`. -/
def parseFields : Nat → JsonFields → List Char → Option (JsonFields × List Char)
  | 0, _, _ => none
  | fuel + 1, acc, s =>
    match s with
    | [] => none
    | c :: rest =>
      if c = '"' then
        match parseStringBody fuel rest with
        | none => none
        | some (kcs, r1) =>
          match skipWs r1 with
          | [] => none
          | d :: r2 =>
            if d = ':' then
              match parseValue fuel (skipWs r2) with
              | none => none
              | some (v, r3) =>
                match skipWs r3 with
                | [] => none
                | e :: r4 =>
                  if e = '\x7d' then some (acc.set (String.mk kcs) v, r4)
                  else if e = ',' then parseFields fuel (acc.set (String.mk kcs) v) (skipWs r4)
                  else none
            else none
      else none
end

/-- `JSON.parse`: parse a complete document, requiring that only
whitespace remains after the value. -/
def jsonParse (s : String) : Option Json :=
  match parseValue (s.data.length + 1) (skipWs s.data) with
  | some (j, rest) => if skipWs rest = [] then some j else none
  | none => none

/-- The decimal digit characters. -/
def digitChar (n : Nat) : Char :=
  if n = 0 then '0' else if n = 1 then '1' else if n = 2 then '2'
  else if n = 3 then '3' else if n = 4 then '4' else if n = 5 then '5'
  else if n = 6 then '6' else if n = 7 then '7' else if n = 8 then '8'
  else '9'

/-- Decimal digits of `n`, most significant first; fuel-driven so that
the definition is structural (the fuel `n + 1` always suffices). -/
def printNatAux : Nat → Nat → List Char
  | 0, _ => []
  | fuel + 1, n =>
    if n < 10 then [digitChar n]
    else printNatAux fuel (n / 10) ++ [digitChar (n % 10)]

/-- Decimal representation of a natural number. -/
def printNat (n : Nat) : List Char := printNatAux (n + 1) n

/-- `ToString` applied to an integral JavaScript number. -/
def printInt (n : Int) : List Char :=
  if n < 0 then '-' :: printNat n.natAbs else printNat n.natAbs

/-- Lowercase hexadecimal digit characters. -/
def hexChar (n : Nat) : Char :=
  if n < 10 then digitChar n
  else if n = 10 then 'a' else if n = 11 then 'b' else if n = 12 then 'c'
  else if n = 13 then 'd' else if n = 14 then 'e' else 'f'

/-- `QuoteJSONString` escaping of one character: quote, backslash and the
named control escapes get two-character escapes, other control characters
get `\u00XX`, and everything else is emitted raw. -/
def escapeChar (c : Char) : List Char :=
  if c = '"' then ['\\', '"']
  else if c = '\\' then ['\\', '\\']
  else if c = '\x08' then ['\\', 'b']
  else if c = '\x0c' then ['\\', 'f']
  else if c = '\n' then ['\\', 'n']
  else if c = '\r' then ['\\', 'r']
  else if c = '\t' then ['\\', 't']
  else if decide (c.toNat < 32) then
    ['\\', 'u', '0', '0', hexChar (c.toNat / 16), hexChar (c.toNat % 16)]
  else [c]

/-- Escape every character of a string body. -/
def escapeList : List Char → List Char
  | [] => []
  | c :: rest => escapeChar c ++ escapeList rest

/-- A JSON string literal for `s`. -/
def quoteJson (s : String) : List Char := '"' :: escapeList s.data ++ ['"']

/-- The two-space gap of `JSON.stringify(·, null, 2)`. -/
def gap2 : List Char := [' ', ' ']

mutual
/-- `JSON.stringify(·, null, 2)` on a value, given the current
indentation (the `stepback` of the ECMAScript algorithm). -/
def stringifyVal (ind : List Char) : Json → List Char
  | .null => ['n', 'u', 'l', 'l']
  | .bool b => if b then ['t', 'r', 'u', 'e'] else ['f', 'a', 'l', 's', 'e']
  | .num n => printInt n
  | .str s => quoteJson s
  | .arr xs =>
    match xs with
    | .nil => ['[', ']']
    | .cons _ _ =>
      '[' :: '\n' :: (ind ++ gap2) ++ stringifyItems (ind ++ gap2) xs
        ++ '\n' :: ind ++ [']']
  | .obj fs =>
    match fs with
    | .nil => ['\x7b', '\x7d']
    | .cons _ _ _ =>
      '\x7b' :: '\n' :: (ind ++ gap2) ++ stringifyFields (ind ++ gap2) fs
        ++ '\n' :: ind ++ ['\x7d']
/-- Array elements joined by `",\n" ++ ind`. -/
def stringifyItems (ind : List Char) : JsonList → List Char
  | .nil => []
  | .cons x tl =>
    stringifyVal ind x ++
      (match tl with
       | .nil => []
       | .cons _ _ => ',' :: '\n' :: ind ++ stringifyItems ind tl)
/-- Object members `"key": value` joined by `",\n" ++ ind`. -/
def stringifyFields (ind : List Char) : JsonFields → List Char
  | .nil => []
  | .cons k v tl =>
    quoteJson k ++ ':' :: ' ' :: stringifyVal ind v ++
      (match tl with
       | .nil => []
       | .cons _ _ _ => ',' :: '\n' :: ind ++ stringifyFields ind tl)
end

/-- `JSON.stringify(j, null, 2)` on a whole document. -/
def jsonStringify (j : Json) : String := String.mk (stringifyVal [] j)

/-! ## `fetchWithBackoff` (App.jsx lines 31–47)

The HTTP environment is a function from call index to status code; the
result records which call succeeded (its parsed body is supplied
separately to `callAiModel`) or the status that caused the terminal
throw.  A network-level failure of `fetch` itself is rethrown by the
source exactly like a non-ok, non-429 status, so it can be modelled as
any status outside both `200..299` and `{429}` (for example `0`).  The
second component collects the backoff waits (`delay` milliseconds before
each retry), in order. -/

/-- Outcome of `fetchWithBackoff`: the index of the call whose response
was ok, or the status of the response that made it throw. -/
inductive FetchResult where
  | success (call : Nat)
  | failure (status : Nat)
  deriving DecidableEq

/-- `fetchWithBackoff(url, options, retries, delay)`: try call `i`; on an
ok status (`response.ok` means 200–299) succeed; on 429 with retries
remaining wait `delay`, double it, decrement the budget and retry;
otherwise throw. -/
def fetchWithBackoff (env : Nat → Nat) : Nat → Nat → Nat → FetchResult × List Nat
  | i, retries, delay =>
    if 200 ≤ env i ∧ env i ≤ 299 then (.success i, [])
    else if env i = 429 then
      match retries with
      | 0 => (.failure (env i), [])
      | r + 1 =>
        let p := fetchWithBackoff env (i + 1) r (delay * 2)
        (p.1, delay :: p.2)
    else (.failure (env i), [])

/-! ## `callAiModel` (App.jsx lines 55–105) -/

/-- The all-zero `GainDelta` returned when anything in the estimation
fails. -/
def zeroGains : Json :=
  .obj (.cons "diligence" (.num 0)
    (.cons "knowledge" (.num 0)
      (.cons "courage" (.num 0)
        (.cons "understanding" (.num 0)
          (.cons "expression" (.num 0) .nil)))))

/-- `result.candidates?.[0]` followed by the check
`candidate && candidate.content?.parts?.[0]?.text`: extract the first
candidate part's text when it exists and is truthy.  The response format
declares `text` to be a string, so the model treats a non-string `text`
value like an absent one. -/
def extractCandidateText (result : Json) : Option String :=
  match result.field "candidates" with
  | none => none
  | some candidates =>
    match candidates.index 0 with
    | none => none
    | some candidate =>
      if candidate.truthy then
        match candidate.field "content" with
        | none => none
        | some content =>
          match content.field "parts" with
          | none => none
          | some parts =>
            match parts.index 0 with
            | none => none
            | some p0 =>
              match p0.field "text" with
              | some (.str s) => if s = "" then none else some s
              | _ => none
      else none

/-- `callAiModel(activity, feeling)`.  The two text inputs only shape the
prompt, never the control flow, so the model abstracts the endpoint as
the status environment `env` and a body function giving the parsed
response (`none` when reading the body throws).  Every failure — a throw
out of `fetchWithBackoff`, an unreadable body, a missing or falsy
candidate text, or candidate text that is not valid JSON — is caught and
becomes `zeroGains`. -/
def callAiModel (env : Nat → Nat) (body : Nat → Option Json) : Json :=
  match fetchWithBackoff env 0 5 1000 with
  | (.failure _, _) => zeroGains
  | (.success i, _) =>
    match body i with
    | none => zeroGains
    | some result =>
      match extractCandidateText result with
      | none => zeroGains
      | some s =>
        match jsonParse s with
        | some j => j
        | none => zeroGains

/-- The entry record built by `handleSubmit` in `AddActivityScreen`; its
`gains` is whatever `callAiModel` returned. -/
structure AiEntry where
  id : String
  date : String
  activity : String
  feeling : String
  gains : Json
  deriving DecidableEq

/-- The submit handler of the add-activity form: reject blank inputs
(`!activity.trim() || !feeling.trim()`), otherwise build the new entry
from the estimator's result.  `none` models the early return with the
validation error message. -/
def handleSubmit (id date activity feeling : String)
    (env : Nat → Nat) (body : Nat → Option Json) : Option AiEntry :=
  if activity.trim = "" ∨ feeling.trim = "" then none
  else some ⟨id, date, activity, feeling, callAiModel env body⟩

/-! ## `useLocalStorage` initial load (App.jsx lines 116–134) -/

/-- What `localStorage.getItem(key)` did: threw (store unavailable),
returned `null` (key absent), or returned a string. -/
inductive StoreRead where
  | unavailable
  | absent
  | found (s : String)

/-- The `useState` initializer of `useLocalStorage`: a throwing or absent
read leaves `storedValue` null; a falsy (empty) stored string is skipped;
otherwise the text is parsed, with a parse failure caught and replaced by
the default.  The function is total: no branch propagates an error. -/
def useLocalStorageInit (read : StoreRead) (defaultValue : Json) : Json :=
  match read with
  | .unavailable => defaultValue
  | .absent => defaultValue
  | .found s =>
    if s = "" then defaultValue
    else
      match jsonParse s with
      | some j => j
      | none => defaultValue

/-! ## Export and import (App.jsx lines 524–586) -/

/-- The two persisted pieces of state, as the JavaScript values they are
at runtime (an import can set them to any truthy JSON values). -/
structure AppState where
  allEntries : Json
  playerStats : Json
  deriving DecidableEq

/-- Outcome message of an import (`setMessage` with type success or
error). -/
inductive ImportMsg where
  | success
  | failure
  deriving DecidableEq

/-- The document built by `handleExport`:
`{ allEntries, playerStats, exportDate }`. -/
def exportDoc (st : AppState) (exportDate : String) : Json :=
  .obj (.cons "allEntries" st.allEntries
    (.cons "playerStats" st.playerStats
      (.cons "exportDate" (.str exportDate) .nil)))

/-- `handleExport` up to the file write: serialize the export document
with `JSON.stringify(data, null, 2)`. -/
def handleExport (st : AppState) (exportDate : String) : String :=
  jsonStringify (exportDoc st exportDate)

/-- The body of `reader.onload`: given parsed data, check
`data.allEntries && data.playerStats` and either replace the whole state
or throw the invalid-format error (caught by the surrounding handler,
leaving the state untouched). -/
def importData (data : Json) (st : AppState) : AppState × ImportMsg :=
  match data.field "allEntries", data.field "playerStats" with
  | some ae, some ps =>
    if ae.truthy ∧ ps.truthy then (⟨ae, ps⟩, .success) else (st, .failure)
  | _, _ => (st, .failure)

/-- `handleImport` on the file's text content: `JSON.parse` it (a parse
error is caught, state unchanged) and run the shape check. -/
def handleImport (text : String) (st : AppState) : AppState × ImportMsg :=
  match jsonParse text with
  | none => (st, .failure)
  | some data => importData data st

/-! ## Entry list and stat aggregation (App.jsx lines 657–667)

The aggregator manipulates `playerStats` and `gains` as number-valued
JavaScript objects, modelled as ordered association lists over `Int`
(the claims about it quantify over well-formed attribute sets and gain
deltas, whose values are numbers). -/

/-- `o[key]` on a number-valued object: the value at the first (hence
only) occurrence of the key. -/
def objGet : List (String × Int) → String → Option Int
  | [], _ => none
  | (k, v) :: rest, key => if k = key then some v else objGet rest key

/-- `o[key] = v`: an existing key keeps its position, a new key is
appended. -/
def objSet : List (String × Int) → String → Int → List (String × Int)
  | [], key, v => [(key, v)]
  | (k, w) :: rest, key, v =>
    if k = key then (k, v) :: rest else (k, w) :: objSet rest key v

/-- `(o[key] || 0)`: on numbers, `0` is the only falsy value and `0 || 0`
is `0`, so this is exactly `getD 0`. -/
def statVal (o : List (String × Int)) (key : String) : Int :=
  (objGet o key).getD 0

/-- The loop `for (const key in newEntry.gains) { newStats[key] =
(newStats[key] || 0) + newEntry.gains[key]; }`, iterating the gain
object's keys in insertion order. -/
def applyGains (prev : List (String × Int)) : List (String × Int) → List (String × Int)
  | [] => prev
  | (k, v) :: rest => applyGains (objSet prev k (statVal prev k + v)) rest

/-- A journal entry as stored in `allEntries` (gains shown as the
number-valued object the aggregator reads). -/
structure Entry where
  id : String
  date : String
  activity : String
  feeling : String
  gains : List (String × Int)
  deriving DecidableEq

/-- `handleSaveEntry`: append the new entry and fold its gains into the
running totals. -/
def handleSaveEntry (entries : List Entry) (stats : List (String × Int))
    (e : Entry) : List Entry × List (String × Int) :=
  (entries ++ [e], applyGains stats e.gains)

/-- The five attribute identifiers, in the order the initial state
declares them. -/
def fiveKeys : List String :=
  ["diligence", "knowledge", "courage", "understanding", "expression"]

/-- The all-zero initial `playerStats` passed to `useLocalStorage`. -/
def initialStats : List (String × Int) :=
  [("diligence", 0), ("knowledge", 0), ("courage", 0),
   ("understanding", 0), ("expression", 0)]

/-- An object with exactly the five attribute keys (each exactly once). -/
def HasFiveKeys (o : List (String × Int)) : Prop :=
  (o.map Prod.fst).Nodup ∧ ∀ k, k ∈ o.map Prod.fst ↔ k ∈ fiveKeys

/-- A valid `GainDelta` per the data model: exactly the five keys, each
value an integer in `[0, 5]`. -/
def ValidGainDelta (g : List (String × Int)) : Prop :=
  HasFiveKeys g ∧ ∀ p ∈ g, 0 ≤ p.2 ∧ p.2 ≤ 5

/-- Attribute sets reachable from the initial all-zero state by saving
entries through the aggregator (each saved entry carrying a valid
`GainDelta`). -/
inductive ReachableStats : List (String × Int) → Prop
  | init : ReachableStats initialStats
  | save (s g : List (String × Int)) (hs : ReachableStats s)
      (hg : ValidGainDelta g) : ReachableStats (applyGains s g)

/-! ## Calendar selection (App.jsx lines 386–390) -/

/-- `new Date(b.id) - new Date(a.id)` where a time value is `none` for an
invalid date: subtraction involving `NaN` is `NaN`, which the sort
treats as zero. -/
def nanSub : Option Int → Option Int → Int
  | some x, some y => x - y
  | _, _ => 0

/-- The comparator passed to `.sort`. -/
def jsCompare (dateVal : String → Option Int) (a b : Entry) : Int :=
  nanSub (dateVal b.id) (dateVal a.id)

/-- `selectedDateEntries`: filter the entries whose `date` equals the
selected date, then sort with the comparator above.  `dateVal` models
`new Date(string).getTime()` (`none` = invalid date).
`Array.prototype.sort` is stable and, for a consistent comparator, every
stable sort produces the same output, so it is modelled by stable
insertion sort on `comparator ≤ 0`. -/
def selectedDateEntries (dateVal : String → Option Int)
    (allEntries : List Entry) (selectedDate : String) : List Entry :=
  List.insertionSort (fun a b => jsCompare dateVal a b ≤ 0)
    (allEntries.filter (fun e => e.date = selectedDate))

/-- Lexicographic (code-point) order on strings, the order JavaScript's
`<` uses on strings; `String.lt` does not reduce in the kernel, so the
development carries its own executable copy. -/
def charListLt : List Char → List Char → Bool
  | [], [] => false
  | [], _ :: _ => true
  | _ :: _, [] => false
  | a :: as, b :: bs =>
    if a < b then true else if b < a then false else charListLt as bs

/-- String order via `charListLt`. -/
def strLt (a b : String) : Bool := charListLt a.data b.data

/-! ## Auxiliary definitions used by the verification -/

/-- Whether a top-level JSON value is an object containing the key. -/
def Json.hasKey : Json → String → Bool
  | .obj fs, k => fs.hasKey k
  | _, _ => false

/-- The remainder after a printed number must not begin with a digit
(otherwise the parser would absorb it); every continuation produced by
the serializer — a separator, a newline or a close bracket — satisfies
this. -/
def numSafe : List Char → Bool
  | [] => true
  | c :: _ => !isDigit c

mutual
/-- Fuel required to parse the serialized form of a value: one unit of
fuel is consumed per parser call and per decoded string character, and
each element or member costs one `parseElems`/`parseFields` call plus
its own value. -/
def Json.fsize : Json → Nat
  | .null => 1
  | .bool _ => 1
  | .num _ => 1
  | .str s => s.length + 2
  | .arr xs => xs.fsizeList + 1
  | .obj fs => fs.fsizeFields + 1
/-- Fuel for a list of array elements. -/
def JsonList.fsizeList : JsonList → Nat
  | .nil => 1
  | .cons x tl => x.fsize + tl.fsizeList + 1
/-- Fuel for a list of object members. -/
def JsonFields.fsizeFields : JsonFields → Nat
  | .nil => 1
  | .cons k v tl => k.length + v.fsize + tl.fsizeFields + 2
end

/-! ## Whitespace and decimal-numeral lemmas -/

theorem skipWs_append (ws X : List Char) (h : ∀ c ∈ ws, isWs c = true) :
    skipWs (ws ++ X) = skipWs X := by
  induction ws with
  | nil => rfl
  | cons c tl ih =>
    simp only [List.cons_append, skipWs, h c (List.mem_cons_self c tl), if_true]
    exact ih fun d hd => h d (List.mem_cons_of_mem c hd)

theorem skipWs_cons_nws (c : Char) (l : List Char) (h : isWs c = false) :
    skipWs (c :: l) = c :: l := by
  simp [skipWs, h]

theorem digitChar_spec : ∀ n < 10, isDigit (digitChar n) = true ∧
    digitVal (digitChar n) = n ∧ (n ≠ 0 → digitChar n ≠ '0') := by decide

theorem digitsToNat_cons (acc : Nat) (c : Char) (l : List Char) :
    digitsToNat acc (c :: l) = digitsToNat (acc * 10 + digitVal c) l := rfl

theorem digitsToNat_append (acc : Nat) (xs ys : List Char) :
    digitsToNat acc (xs ++ ys) = digitsToNat (digitsToNat acc xs) ys := by
  induction xs generalizing acc with
  | nil => rfl
  | cons c tl ih =>
    rw [List.cons_append, digitsToNat_cons, digitsToNat_cons]
    exact ih (acc * 10 + digitVal c)

theorem digitsToNat_nil (acc : Nat) : digitsToNat acc [] = acc := rfl

theorem printNatAux_succ (fuel n : Nat) :
    printNatAux (fuel + 1) n
      = if n < 10 then [digitChar n]
        else printNatAux fuel (n / 10) ++ [digitChar (n % 10)] := rfl

theorem printNatAux_spec_small (fuel n : Nat) (h10 : n < 10) :
    printNatAux (fuel + 1) n ≠ [] ∧
    (∀ c ∈ printNatAux (fuel + 1) n, isDigit c = true) ∧
    (∀ acc, digitsToNat acc (printNatAux (fuel + 1) n)
      = acc * 10 ^ (printNatAux (fuel + 1) n).length + n) ∧
    (n ≠ 0 → ∀ c, (printNatAux (fuel + 1) n).head? = some c → c ≠ '0') := by
  obtain ⟨hd, hv, hz⟩ := digitChar_spec n h10
  have hp : printNatAux (fuel + 1) n = [digitChar n] := by
    rw [printNatAux_succ, if_pos h10]
  refine ⟨by simp [hp], ?_, ?_, ?_⟩
  · intro c hc
    rw [hp] at hc
    simp at hc
    simpa [hc] using hd
  · intro acc
    rw [hp, digitsToNat_cons, digitsToNat_nil, hv]
    simp
  · intro hn0 c hc
    rw [hp] at hc
    simp at hc
    simpa [hc] using hz hn0

theorem printNatAux_spec (fuel : Nat) : ∀ n, n < 10 ^ (fuel + 1) →
    printNatAux (fuel + 1) n ≠ [] ∧
    (∀ c ∈ printNatAux (fuel + 1) n, isDigit c = true) ∧
    (∀ acc, digitsToNat acc (printNatAux (fuel + 1) n)
      = acc * 10 ^ (printNatAux (fuel + 1) n).length + n) ∧
    (n ≠ 0 → ∀ c, (printNatAux (fuel + 1) n).head? = some c → c ≠ '0') := by
  induction fuel with
  | zero =>
    intro n hn
    exact printNatAux_spec_small 0 n (by simpa using hn)
  | succ f ih =>
    intro n hn
    by_cases h10 : n < 10
    · exact printNatAux_spec_small (f + 1) n h10
    · have hstep : printNatAux (f + 1 + 1) n
          = printNatAux (f + 1) (n / 10) ++ [digitChar (n % 10)] := by
        rw [printNatAux_succ, if_neg h10]
      have hdiv : n / 10 < 10 ^ (f + 1) := by
        have h1 : n < 10 * 10 ^ (f + 1) := by
          calc n < 10 ^ (f + 1 + 1) := hn
          _ = 10 * 10 ^ (f + 1) := by ring
        exact Nat.div_lt_of_lt_mul h1
      obtain ⟨hne, hdig, hval, hhd⟩ := ih (n / 10) hdiv
      obtain ⟨hdm, hvm, _⟩ := digitChar_spec (n % 10) (Nat.mod_lt n (by norm_num))
      refine ⟨by simp [hstep], ?_, ?_, ?_⟩
      · intro c hc
        rw [hstep] at hc
        rcases List.mem_append.mp hc with h | h
        · exact hdig c h
        · simp at h
          simpa [h] using hdm
      · intro acc
        rw [hstep, digitsToNat_append, hval acc, digitsToNat_cons,
          digitsToNat_nil, hvm]
        simp only [List.length_append, List.length_cons, List.length_nil]
        rw [pow_succ]
        have := Nat.div_add_mod n 10
        ring_nf
        omega
      · intro hn0 c hc
        rw [hstep] at hc
        cases hP : printNatAux (f + 1) (n / 10) with
        | nil => exact absurd hP hne
        | cons a t =>
          rw [hP] at hc
          simp at hc
          have hq : n / 10 ≠ 0 := by
            intro h
            exact h10 (by omega)
          exact hc ▸ hhd hq a (by rw [hP]; rfl)

theorem printNat_spec (n : Nat) :
    printNat n ≠ [] ∧ (∀ c ∈ printNat n, isDigit c = true) ∧
    digitsToNat 0 (printNat n) = n ∧
    (n ≠ 0 → ∀ c, (printNat n).head? = some c → c ≠ '0') := by
  have hlt : n < 10 ^ (n + 1) := by
    calc n < 10 ^ n := Nat.lt_pow_self (by norm_num) n
    _ ≤ 10 ^ (n + 1) := Nat.pow_le_pow_right (by norm_num) (Nat.le_succ n)
  obtain ⟨h1, h2, h3, h4⟩ := printNatAux_spec n n hlt
  exact ⟨h1, h2, by simpa using h3 0, h4⟩

theorem takeDigits_append (ds rest : List Char) (hd : ∀ c ∈ ds, isDigit c = true)
    (hr : numSafe rest = true) : takeDigits (ds ++ rest) = (ds, rest) := by
  induction ds with
  | nil =>
    cases rest with
    | nil => rfl
    | cons c tl =>
      simp [numSafe] at hr
      simp [takeDigits, hr]
  | cons c tl ih =>
    simp [takeDigits, hd c (List.mem_cons_self c tl),
      ih fun d hdm => hd d (List.mem_cons_of_mem c hdm)]

theorem parseNatLit_print (n : Nat) (rest : List Char) (hr : numSafe rest = true) :
    parseNatLit (printNat n ++ rest) = some (n, rest) := by
  obtain ⟨hne, hdig, hval, hhd⟩ := printNat_spec n
  by_cases h0 : n = 0
  · subst h0
    have hp : printNat 0 = ['0'] := by decide
    rw [hp]
    cases rest with
    | nil => rfl
    | cons c tl =>
      simp [numSafe] at hr
      simp [parseNatLit, hr]
  · cases hP : printNat n with
    | nil => exact absurd hP hne
    | cons c cs =>
      have hc : isDigit c = true := hdig c (by rw [hP]; exact List.mem_cons_self c cs)
      have hcz : c ≠ '0' := hhd h0 c (by rw [hP]; rfl)
      have hcs : ∀ d ∈ cs, isDigit d = true := fun d hdm =>
        hdig d (by rw [hP]; exact List.mem_cons_of_mem c hdm)
      simp only [List.cons_append, parseNatLit, if_neg hcz, hc, if_true,
        takeDigits_append cs rest hcs hr]
      have hfold : digitsToNat (digitVal c) cs = n := by
        have h := hval
        rw [hP, digitsToNat_cons] at h
        simpa using h
      rw [hfold]

theorem parseNumLit_print (n : Int) (rest : List Char) (hr : numSafe rest = true) :
    parseNumLit (printInt n ++ rest) = some (n, rest) := by
  by_cases hneg : n < 0
  · rw [printInt, if_pos hneg]
    have habs : -|n| = n := by rw [abs_of_neg hneg, neg_neg]
    simp [parseNumLit, parseNatLit_print n.natAbs rest hr, habs]
  · rw [printInt, if_neg hneg]
    obtain ⟨hne, hdig, _, _⟩ := printNat_spec n.natAbs
    cases hP : printNat n.natAbs with
    | nil => exact absurd hP hne
    | cons c cs =>
      have hc : isDigit c = true := hdig c (by rw [hP]; exact List.mem_cons_self c cs)
      have hcm : c ≠ '-' := by
        intro h
        rw [h] at hc
        exact absurd hc (by decide)
      simp only [List.cons_append, parseNumLit, if_neg hcm]
      have hres : parseNatLit (c :: (cs ++ rest)) = some (n.natAbs, rest) := by
        have h := parseNatLit_print n.natAbs rest hr
        rw [hP] at h
        simpa using h
      rw [hres]
      have habs : (n.natAbs : Int) = n := by omega
      simp [habs]

/-! ## String-literal round trip -/

theorem hexChar_spec : ∀ n < 16, hexVal (hexChar n) = some n := by decide

theorem consChar_some (c : Char) (cs r : List Char) :
    consChar c (some (cs, r)) = some (c :: cs, r) := rfl

theorem psb_step (f : Nat) (c : Char) (rest : List Char) :
    parseStringBody (f + 1) (c :: rest)
      = (if c = '"' then some ([], rest)
         else if c = '\\' then
           match parseEsc rest with
           | some (d, rest2) => consChar d (parseStringBody f rest2)
           | none => none
         else if decide (c.toNat < 32) then none
         else consChar c (parseStringBody f rest)) := rfl

theorem parseEsc_step (e : Char) (rest : List Char) :
    parseEsc (e :: rest)
      = (if e = '"' then some ('"', rest)
         else if e = '\\' then some ('\\', rest)
         else if e = '/' then some ('/', rest)
         else if e = 'b' then some ('\x08', rest)
         else if e = 'f' then some ('\x0c', rest)
         else if e = 'n' then some ('\n', rest)
         else if e = 'r' then some ('\r', rest)
         else if e = 't' then some ('\t', rest)
         else if e = 'u' then parseUnicodeEsc rest
         else none) := rfl

theorem parseUnicodeEsc_step (h1 h2 h3 h4 : Char) (rest : List Char) :
    parseUnicodeEsc (h1 :: h2 :: h3 :: h4 :: rest)
      = (match hexVal h1, hexVal h2, hexVal h3, hexVal h4 with
         | some a, some b, some c, some d =>
           let n := a * 4096 + b * 256 + c * 16 + d
           if n < 55296 then some (Char.ofNat n, rest) else none
         | _, _, _, _ => none) := rfl

theorem parseStringBody_escape :
    ∀ (cs : List Char) (fuel : Nat) (rest : List Char), cs.length + 1 ≤ fuel →
      parseStringBody fuel (escapeList cs ++ '"' :: rest) = some (cs, rest) := by
  intro cs
  induction cs with
  | nil =>
    intro fuel rest hf
    cases fuel with
    | zero => omega
    | succ f =>
      show parseStringBody (f + 1) ('"' :: rest) = some ([], rest)
      rw [psb_step, if_pos rfl]
  | cons c tl ih =>
    intro fuel rest hf
    cases fuel with
    | zero => simp at hf
    | succ f =>
      have htl : tl.length + 1 ≤ f := by
        simp only [List.length_cons] at hf
        omega
      have hih := ih f rest htl
      show parseStringBody (f + 1) ((escapeChar c ++ escapeList tl) ++ '"' :: rest)
        = some (c :: tl, rest)
      rw [List.append_assoc]
      by_cases h1 : c = '"'
      · subst h1
        rw [show escapeChar '"' = ['\\', '"'] from rfl]
        simp only [List.cons_append]
        rw [psb_step, if_neg (by decide), if_pos rfl, parseEsc_step, if_pos rfl]
        simp only [List.nil_append, hih, consChar_some]
      · by_cases h2 : c = '\\'
        · subst h2
          rw [show escapeChar '\\' = ['\\', '\\'] from rfl]
          simp only [List.cons_append]
          rw [psb_step, if_neg (by decide), if_pos rfl, parseEsc_step,
            if_neg (by decide), if_pos rfl]
          simp only [List.nil_append, hih, consChar_some]
        · by_cases h3 : c = '\x08'
          · subst h3
            rw [show escapeChar '\x08' = ['\\', 'b'] from rfl]
            simp only [List.cons_append]
            rw [psb_step, if_neg (by decide), if_pos rfl, parseEsc_step,
              if_neg (by decide), if_neg (by decide), if_neg (by decide),
              if_pos rfl]
            simp only [List.nil_append, hih, consChar_some]
          · by_cases h4 : c = '\x0c'
            · subst h4
              rw [show escapeChar '\x0c' = ['\\', 'f'] from rfl]
              simp only [List.cons_append]
              rw [psb_step, if_neg (by decide), if_pos rfl, parseEsc_step,
                if_neg (by decide), if_neg (by decide), if_neg (by decide),
                if_neg (by decide), if_pos rfl]
              simp only [List.nil_append, hih, consChar_some]
            · by_cases h5 : c = '\n'
              · subst h5
                rw [show escapeChar '\n' = ['\\', 'n'] from rfl]
                simp only [List.cons_append]
                rw [psb_step, if_neg (by decide), if_pos rfl, parseEsc_step,
                  if_neg (by decide), if_neg (by decide), if_neg (by decide),
                  if_neg (by decide), if_neg (by decide), if_pos rfl]
                simp only [List.nil_append, hih, consChar_some]
              · by_cases h6 : c = '\r'
                · subst h6
                  rw [show escapeChar '\r' = ['\\', 'r'] from rfl]
                  simp only [List.cons_append]
                  rw [psb_step, if_neg (by decide), if_pos rfl, parseEsc_step,
                    if_neg (by decide), if_neg (by decide), if_neg (by decide),
                    if_neg (by decide), if_neg (by decide), if_neg (by decide),
                    if_pos rfl]
                  simp only [List.nil_append, hih, consChar_some]
                · by_cases h7 : c = '\t'
                  · subst h7
                    rw [show escapeChar '\t' = ['\\', 't'] from rfl]
                    simp only [List.cons_append]
                    rw [psb_step, if_neg (by decide), if_pos rfl, parseEsc_step,
                      if_neg (by decide), if_neg (by decide), if_neg (by decide),
                      if_neg (by decide), if_neg (by decide), if_neg (by decide),
                      if_neg (by decide), if_pos rfl]
                    simp only [List.nil_append, hih, consChar_some]
                  · by_cases h8 : c.toNat < 32
                    · have he : escapeChar c
                          = ['\\', 'u', '0', '0', hexChar (c.toNat / 16),
                             hexChar (c.toNat % 16)] := by
                        simp only [escapeChar, if_neg h1, if_neg h2, if_neg h3,
                          if_neg h4, if_neg h5, if_neg h6, if_neg h7]
                        rw [if_pos (by simpa using h8)]
                      rw [he]
                      simp only [List.cons_append]
                      rw [psb_step, if_neg (by decide), if_pos rfl, parseEsc_step,
                        if_neg (by decide), if_neg (by decide), if_neg (by decide),
                        if_neg (by decide), if_neg (by decide), if_neg (by decide),
                        if_neg (by decide), if_neg (by decide), if_pos rfl,
                        parseUnicodeEsc_step]
                      rw [show hexVal '0' = some 0 from rfl]
                      rw [hexChar_spec (c.toNat / 16) (by omega),
                        hexChar_spec (c.toNat % 16) (by omega)]
                      have harith : 0 * 4096 + 0 * 256 + c.toNat / 16 * 16
                          + c.toNat % 16 = c.toNat := by omega
                      simp only [harith]
                      rw [if_pos (by omega), Char.ofNat_toNat]
                      simp only [List.nil_append, hih, consChar_some]
                    · have he : escapeChar c = [c] := by
                        simp only [escapeChar, if_neg h1, if_neg h2, if_neg h3,
                          if_neg h4, if_neg h5, if_neg h6, if_neg h7]
                        rw [if_neg (by simpa using h8)]
                      rw [he, List.cons_append, List.nil_append]
                      have hq : decide (c.toNat < 32) = false := by
                        simpa using h8
                      rw [psb_step, if_neg h1, if_neg h2, hq]
                      simp only [Bool.false_eq_true, if_false]
                      simp only [List.nil_append, hih, consChar_some]

/-! ## Field-list lemmas -/

theorem JsonFields.hasKey_append (a b : JsonFields) (k : String) :
    (a.append b).hasKey k = (a.hasKey k || b.hasKey k) := by
  cases a with
  | nil => rfl
  | cons k2 v tl =>
    by_cases h : k2 = k
    · simp [JsonFields.append, JsonFields.hasKey, h]
    · simp [JsonFields.append, JsonFields.hasKey, h,
        JsonFields.hasKey_append tl b k]

theorem JsonFields.append_assoc (a b c : JsonFields) :
    (a.append b).append c = a.append (b.append c) := by
  cases a with
  | nil => rfl
  | cons k v tl => simp [JsonFields.append, JsonFields.append_assoc tl b c]

theorem JsonFields.set_fresh (a : JsonFields) (k : String) (v : Json)
    (h : a.hasKey k = false) : a.set k v = a.append (.cons k v .nil) := by
  cases a with
  | nil => rfl
  | cons k2 w tl =>
    simp only [JsonFields.hasKey] at h
    by_cases hk : k2 = k
    · simp [hk] at h
    · simp only [JsonFields.set, JsonFields.append, if_neg hk]
      rw [JsonFields.set_fresh tl k v (by simpa [hk] using h)]

/-! ## Character classification and serializer head shape -/

theorem char_digit_props (c : Char) (h : isDigit c = true) :
    isWs c = false ∧ c ≠ ']' ∧ c ≠ '\x7d' ∧ c ≠ '-' ∧ c ≠ 'n' ∧ c ≠ 't'
      ∧ c ≠ 'f' ∧ c ≠ '"' ∧ c ≠ '[' ∧ c ≠ '\x7b' := by
  have hb : 48 ≤ c.toNat ∧ c.toNat ≤ 57 := by simpa [isDigit] using h
  refine ⟨?_, ?_, ?_, ?_, ?_, ?_, ?_, ?_, ?_, ?_⟩
  · have h1 : c ≠ ' ' := by intro hc; subst hc; exact absurd hb (by decide)
    have h2 : c ≠ '\n' := by intro hc; subst hc; exact absurd hb (by decide)
    have h3 : c ≠ '\t' := by intro hc; subst hc; exact absurd hb (by decide)
    have h4 : c ≠ '\r' := by intro hc; subst hc; exact absurd hb (by decide)
    simp [isWs, h1, h2, h3, h4]
  all_goals (intro hc; subst hc; exact absurd hb (by decide))

theorem printInt_head (n : Int) :
    ∃ c cs, printInt n = c :: cs ∧ (c = '-' ∨ isDigit c = true) := by
  by_cases hneg : n < 0
  · exact ⟨'-', printNat n.natAbs, by rw [printInt, if_pos hneg], Or.inl rfl⟩
  · obtain ⟨hne, hdig, _, _⟩ := printNat_spec n.natAbs
    cases hP : printNat n.natAbs with
    | nil => exact absurd hP hne
    | cons c cs =>
      refine ⟨c, cs, ?_, Or.inr (hdig c (by rw [hP]; exact List.mem_cons_self c cs))⟩
      rw [printInt, if_neg hneg, hP]

theorem stringifyVal_head (ind : List Char) (j : Json) :
    ∃ c cs, stringifyVal ind j = c :: cs ∧ isWs c = false
      ∧ c ≠ ']' ∧ c ≠ '\x7d' := by
  cases j with
  | num n =>
    obtain ⟨c, cs, hP, hc⟩ := printInt_head n
    refine ⟨c, cs, by rw [show stringifyVal ind (.num n) = printInt n from rfl, hP], ?_⟩
    rcases hc with hc | hc
    · subst hc; decide
    · obtain ⟨h1, h2, h3, _⟩ := char_digit_props c hc
      exact ⟨h1, h2, h3⟩
  | null => exact ⟨'n', _, rfl, by decide⟩
  | bool b => cases b with
    | true  => exact ⟨'t', _, rfl, by decide⟩
    | false => exact ⟨'f', _, rfl, by decide⟩
  | str s => exact ⟨'"', _, rfl, by decide⟩
  | arr xs => cases xs with
    | nil => exact ⟨'[', _, rfl, by decide⟩
    | cons x tl => exact ⟨'[', _, rfl, by decide⟩
  | obj fs => cases fs with
    | nil => exact ⟨'\x7b', _, rfl, by decide⟩
    | cons k v tl => exact ⟨'\x7b', _, rfl, by decide⟩

/-! ## Fuel bounds: the serialized form is at least as long as the fuel
the parser needs -/

theorem escapeChar_len (c : Char) : 1 ≤ (escapeChar c).length := by
  simp only [escapeChar]
  split_ifs <;> simp

theorem escapeList_len (cs : List Char) : cs.length ≤ (escapeList cs).length := by
  induction cs with
  | nil => simp [escapeList]
  | cons c tl ih =>
    simp only [escapeList, List.length_append, List.length_cons]
    have := escapeChar_len c
    omega

theorem quoteJson_len (s : String) : s.length + 2 ≤ (quoteJson s).length := by
  simp only [quoteJson, List.length_cons, List.length_append, List.length_nil]
  have := escapeList_len s.data
  have hsl : s.length = s.data.length := rfl
  omega

theorem printInt_ne_nil (n : Int) : printInt n ≠ [] := by
  obtain ⟨c, cs, hP, _⟩ := printInt_head n
  simp [hP]

mutual
theorem fsize_le_len (ind : List Char) (j : Json) :
    j.fsize ≤ (stringifyVal ind j).length := by
  cases j with
  | null => simp [Json.fsize, stringifyVal]
  | bool b => cases b <;> simp [Json.fsize, stringifyVal]
  | num n =>
    have h1 : (1 : Nat) ≤ (printInt n).length := by
      cases hP : printInt n with
      | nil => exact absurd hP (printInt_ne_nil n)
      | cons c cs => simp
    simpa [Json.fsize, stringifyVal] using h1
  | str s =>
    have := quoteJson_len s
    simpa [Json.fsize, stringifyVal] using this
  | arr xs =>
    cases xs with
    | nil => simp [Json.fsize, JsonList.fsizeList, stringifyVal]
    | cons x tl =>
      have h := fsizeList_le_len (ind ++ gap2) (JsonList.cons x tl)
      simp only [Json.fsize, stringifyVal, List.length_cons, List.length_append]
      omega
  | obj fs =>
    cases fs with
    | nil => simp [Json.fsize, JsonFields.fsizeFields, stringifyVal]
    | cons k v tl =>
      have h := fsizeFields_le_len (ind ++ gap2) (JsonFields.cons k v tl)
      simp only [Json.fsize, stringifyVal, List.length_cons, List.length_append]
      omega

theorem fsizeList_le_len (ind : List Char) (xs : JsonList) :
    xs.fsizeList ≤ (stringifyItems ind xs).length + 2 := by
  cases xs with
  | nil => simp [JsonList.fsizeList, stringifyItems]
  | cons x tl =>
    have hx := fsize_le_len ind x
    cases tl with
    | nil =>
      have h : stringifyItems ind (JsonList.cons x JsonList.nil)
          = stringifyVal ind x ++ [] := rfl
      rw [h]
      simp only [JsonList.fsizeList, List.length_append, List.length_nil]
      omega
    | cons y tl2 =>
      have ht := fsizeList_le_len ind (JsonList.cons y tl2)
      simp only [JsonList.fsizeList, stringifyItems, List.length_append,
        List.length_cons] at ht ⊢
      omega

theorem fsizeFields_le_len (ind : List Char) (fs : JsonFields) :
    fs.fsizeFields ≤ (stringifyFields ind fs).length + 2 := by
  cases fs with
  | nil => simp [JsonFields.fsizeFields, stringifyFields]
  | cons k v tl =>
    have hv := fsize_le_len ind v
    have hq := quoteJson_len k
    cases tl with
    | nil =>
      have h : stringifyFields ind (JsonFields.cons k v JsonFields.nil)
          = quoteJson k ++ ':' :: ' ' :: stringifyVal ind v ++ [] := rfl
      rw [h]
      simp only [JsonFields.fsizeFields, List.length_append, List.length_nil,
        List.length_cons]
      omega
    | cons k2 v2 tl2 =>
      have ht := fsizeFields_le_len ind (JsonFields.cons k2 v2 tl2)
      simp only [JsonFields.fsizeFields, stringifyFields, List.length_append,
        List.length_cons] at ht ⊢
      omega
end

/-! ## Step equations for the serializer and parser -/

theorem sv_null (ind : List Char) :
    stringifyVal ind Json.null = ['n', 'u', 'l', 'l'] := rfl

theorem sv_true (ind : List Char) :
    stringifyVal ind (Json.bool true) = ['t', 'r', 'u', 'e'] := rfl

theorem sv_false (ind : List Char) :
    stringifyVal ind (Json.bool false) = ['f', 'a', 'l', 's', 'e'] := rfl

theorem sv_num (ind : List Char) (n : Int) :
    stringifyVal ind (Json.num n) = printInt n := rfl

theorem sv_str (ind : List Char) (s : String) :
    stringifyVal ind (Json.str s) = quoteJson s := rfl

theorem sv_arr_nil (ind : List Char) :
    stringifyVal ind (Json.arr .nil) = ['[', ']'] := rfl

theorem sv_arr_cons (ind : List Char) (x : Json) (tl : JsonList) :
    stringifyVal ind (Json.arr (.cons x tl))
      = '[' :: '\n' :: (ind ++ gap2) ++ stringifyItems (ind ++ gap2) (.cons x tl)
        ++ '\n' :: ind ++ [']'] := rfl

theorem sv_obj_nil (ind : List Char) :
    stringifyVal ind (Json.obj .nil) = ['\x7b', '\x7d'] := rfl

theorem sv_obj_cons (ind : List Char) (k : String) (v : Json) (tl : JsonFields) :
    stringifyVal ind (Json.obj (.cons k v tl))
      = '\x7b' :: '\n' :: (ind ++ gap2) ++ stringifyFields (ind ++ gap2) (.cons k v tl)
        ++ '\n' :: ind ++ ['\x7d'] := rfl

theorem si_single (ind : List Char) (x : Json) :
    stringifyItems ind (.cons x .nil) = stringifyVal ind x ++ [] := rfl

theorem si_cons (ind : List Char) (x y : Json) (tl : JsonList) :
    stringifyItems ind (.cons x (.cons y tl))
      = stringifyVal ind x
        ++ (',' :: '\n' :: ind ++ stringifyItems ind (.cons y tl)) := rfl

theorem sf_single (ind : List Char) (k : String) (v : Json) :
    stringifyFields ind (.cons k v .nil)
      = quoteJson k ++ ':' :: ' ' :: stringifyVal ind v ++ [] := rfl

theorem sf_cons (ind : List Char) (k : String) (v : Json) (k2 : String)
    (v2 : Json) (tl : JsonFields) :
    stringifyFields ind (.cons k v (.cons k2 v2 tl))
      = quoteJson k ++ ':' :: ' ' :: stringifyVal ind v
        ++ (',' :: '\n' :: ind ++ stringifyFields ind (.cons k2 v2 tl)) := rfl

theorem pv_step (fuel : Nat) (c : Char) (rest : List Char) :
    parseValue (fuel + 1) (c :: rest)
      = (if c = 'n' then expectLit ['u', 'l', 'l'] rest Json.null
         else if c = 't' then expectLit ['r', 'u', 'e'] rest (Json.bool true)
         else if c = 'f' then expectLit ['a', 'l', 's', 'e'] rest (Json.bool false)
         else if c = '"' then
           match parseStringBody fuel rest with
           | some (cs, r) => some (Json.str (String.mk cs), r)
           | none => none
         else if c = '[' then
           match skipWs rest with
           | [] => none
           | d :: r2 =>
             if d = ']' then some (Json.arr .nil, r2)
             else
               match parseElems fuel (d :: r2) with
               | some (xs, r3) => some (Json.arr xs, r3)
               | none => none
         else if c = '\x7b' then
           match skipWs rest with
           | [] => none
           | d :: r2 =>
             if d = '\x7d' then some (Json.obj .nil, r2)
             else
               match parseFields fuel .nil (d :: r2) with
               | some (fs, r3) => some (Json.obj fs, r3)
               | none => none
         else
           match parseNumLit (c :: rest) with
           | some (n, r) => some (Json.num n, r)
           | none => none) := rfl

theorem pe_step (fuel : Nat) (s : List Char) :
    parseElems (fuel + 1) s
      = (match parseValue fuel s with
         | none => none
         | some (j, r) =>
           match skipWs r with
           | [] => none
           | d :: r2 =>
             if d = ']' then some (.cons j .nil, r2)
             else if d = ',' then
               match parseElems fuel (skipWs r2) with
               | some (xs, r3) => some (.cons j xs, r3)
               | none => none
             else none) := rfl

theorem pf_step (fuel : Nat) (acc : JsonFields) (c : Char) (rest : List Char) :
    parseFields (fuel + 1) acc (c :: rest)
      = (if c = '"' then
           match parseStringBody fuel rest with
           | none => none
           | some (kcs, r1) =>
             match skipWs r1 with
             | [] => none
             | d :: r2 =>
               if d = ':' then
                 match parseValue fuel (skipWs r2) with
                 | none => none
                 | some (v, r3) =>
                   match skipWs r3 with
                   | [] => none
                   | e :: r4 =>
                     if e = '\x7d' then some (acc.set (String.mk kcs) v, r4)
                     else if e = ',' then
                       parseFields fuel (acc.set (String.mk kcs) v) (skipWs r4)
                     else none
               else none
         else none) := rfl

/-! ## More helpers for the round trip -/

theorem skipWs_cons_ws (c : Char) (l : List Char) (h : isWs c = true) :
    skipWs (c :: l) = skipWs l := by
  simp [skipWs, h]

theorem ws_ind_gap (ind : List Char) (h : ∀ c ∈ ind, isWs c = true) :
    ∀ c ∈ ind ++ gap2, isWs c = true := by
  intro c hc
  rcases List.mem_append.mp hc with h1 | h1
  · exact h c h1
  · simp [gap2] at h1
    subst h1
    decide

theorem fsize_pos (j : Json) : 1 ≤ j.fsize := by
  cases j <;> simp [Json.fsize]

theorem fsizeList_pos (xs : JsonList) : 1 ≤ xs.fsizeList := by
  cases xs <;> simp [JsonList.fsizeList]

theorem fsizeFields_pos (fs : JsonFields) : 1 ≤ fs.fsizeFields := by
  cases fs <;> simp [JsonFields.fsizeFields]

theorem stringifyItems_head (ind : List Char) (x : Json) (tl : JsonList) :
    ∃ c cs, stringifyItems ind (.cons x tl) = c :: cs ∧ isWs c = false
      ∧ c ≠ ']' ∧ c ≠ '\x7d' := by
  obtain ⟨c, cs, hP, h1, h2, h3⟩ := stringifyVal_head ind x
  cases tl with
  | nil =>
    refine ⟨c, cs ++ [], ?_, h1, h2, h3⟩
    rw [si_single, hP, List.cons_append]
  | cons y tl2 =>
    refine ⟨c, cs ++ (',' :: '\n' :: ind ++ stringifyItems ind (.cons y tl2)),
      ?_, h1, h2, h3⟩
    rw [si_cons, hP, List.cons_append]

theorem stringifyFields_head (ind : List Char) (k : String) (v : Json)
    (tl : JsonFields) :
    ∃ cs, stringifyFields ind (.cons k v tl) = '"' :: cs := by
  cases tl with
  | nil =>
    refine ⟨(escapeList k.data ++ ['"'])
      ++ (':' :: ' ' :: stringifyVal ind v ++ []), ?_⟩
    rw [sf_single]
    simp [quoteJson, List.append_assoc]
  | cons k2 v2 tl2 =>
    refine ⟨(escapeList k.data ++ ['"'])
      ++ (':' :: ' ' :: stringifyVal ind v
          ++ (',' :: '\n' :: ind ++ stringifyFields ind (.cons k2 v2 tl2))), ?_⟩
    rw [sf_cons]
    simp [quoteJson, List.append_assoc]

theorem skipWs_headed (X T : List Char) (c : Char) (cs : List Char)
    (hX : X = c :: cs) (h : isWs c = false) : skipWs (X ++ T) = X ++ T := by
  subst hX
  simp only [List.cons_append]
  exact skipWs_cons_nws _ _ h

/-! ## The round trip: parsing a serialized value returns it -/

theorem parse_print : ∀ fuel : Nat,
    (∀ (j : Json) (ind rest : List Char), j.wf = true → j.fsize ≤ fuel →
      (∀ c ∈ ind, isWs c = true) → numSafe rest = true →
      parseValue fuel (stringifyVal ind j ++ rest) = some (j, rest)) ∧
    (∀ (x : Json) (tl : JsonList) (ind ind0 rest : List Char),
      (JsonList.cons x tl).wfList = true →
      (JsonList.cons x tl).fsizeList ≤ fuel →
      (∀ c ∈ ind, isWs c = true) → (∀ c ∈ ind0, isWs c = true) →
      parseElems fuel
        (stringifyItems ind (.cons x tl) ++ ('\n' :: (ind0 ++ (']' :: rest))))
        = some (.cons x tl, rest)) ∧
    (∀ (k : String) (v : Json) (tl : JsonFields) (acc : JsonFields)
        (ind ind0 rest : List Char),
      (JsonFields.cons k v tl).wfFields = true →
      (JsonFields.cons k v tl).fsizeFields ≤ fuel →
      (∀ k2, (JsonFields.cons k v tl).hasKey k2 = true → acc.hasKey k2 = false) →
      (∀ c ∈ ind, isWs c = true) → (∀ c ∈ ind0, isWs c = true) →
      parseFields fuel acc
        (stringifyFields ind (.cons k v tl) ++ ('\n' :: (ind0 ++ ('\x7d' :: rest))))
        = some (acc.append (.cons k v tl), rest)) := by
  intro fuel
  induction fuel with
  | zero =>
    refine ⟨?_, ?_, ?_⟩
    · intro j ind rest hwf hfs hind hns
      exact absurd hfs (by have := fsize_pos j; omega)
    · intro x tl ind ind0 rest hwf hfs hind hind0
      exact absurd hfs (by have := fsizeList_pos (JsonList.cons x tl); omega)
    · intro k v tl acc ind ind0 rest hwf hfs hfresh hind hind0
      exact absurd hfs (by have := fsizeFields_pos (JsonFields.cons k v tl); omega)
  | succ fuel ih =>
    obtain ⟨IHv, IHe, IHf⟩ := ih
    refine ⟨?_, ?_, ?_⟩
    · -- parseValue round trip
      intro j ind rest hwf hfs hind hns
      cases j with
      | null =>
        rw [sv_null]
        simp only [List.cons_append, List.nil_append]
        rw [pv_step, if_pos rfl]
        rfl
      | bool b =>
        cases b with
        | true =>
          rw [sv_true]
          simp only [List.cons_append, List.nil_append]
          rw [pv_step, if_neg (by decide), if_pos rfl]
          rfl
        | false =>
          rw [sv_false]
          simp only [List.cons_append, List.nil_append]
          rw [pv_step, if_neg (by decide), if_neg (by decide), if_pos rfl]
          rfl
      | num n =>
        rw [sv_num]
        obtain ⟨c, cs, hP, hc⟩ := printInt_head n
        have hprops : c ≠ 'n' ∧ c ≠ 't' ∧ c ≠ 'f' ∧ c ≠ '"' ∧ c ≠ '['
            ∧ c ≠ '\x7b' := by
          rcases hc with hc | hc
          · subst hc
            exact ⟨by decide, by decide, by decide, by decide, by decide,
              by decide⟩
          · obtain ⟨_, _, _, _, h5, h6, h7, h8, h9, h10⟩ := char_digit_props c hc
            exact ⟨h5, h6, h7, h8, h9, h10⟩
        obtain ⟨hc1, hc2, hc3, hc4, hc5, hc6⟩ := hprops
        rw [hP]
        simp only [List.cons_append]
        rw [pv_step, if_neg hc1, if_neg hc2, if_neg hc3, if_neg hc4, if_neg hc5,
          if_neg hc6]
        have hnum : parseNumLit (c :: (cs ++ rest)) = some (n, rest) := by
          have h := parseNumLit_print n rest hns
          rw [hP] at h
          simpa using h
        rw [hnum]
      | str s =>
        rw [sv_str]
        have hlen : s.data.length + 1 ≤ fuel := by
          have hsd : s.length = s.data.length := rfl
          simp only [Json.fsize] at hfs
          omega
        have hsh : quoteJson s ++ rest
            = '"' :: (escapeList s.data ++ '"' :: rest) := by
          simp [quoteJson, List.append_assoc]
        rw [hsh, pv_step, if_neg (by decide), if_neg (by decide),
          if_neg (by decide), if_pos rfl,
          parseStringBody_escape s.data fuel rest hlen]
      | arr xs =>
        have hwf2 : xs.wfList = true := by simpa [Json.wf] using hwf
        have hfs2 : xs.fsizeList ≤ fuel := by
          simp only [Json.fsize] at hfs
          omega
        cases xs with
        | nil =>
          rw [sv_arr_nil]
          simp only [List.cons_append, List.nil_append]
          rw [pv_step, if_neg (by decide), if_neg (by decide), if_neg (by decide),
            if_neg (by decide), if_pos rfl, skipWs_cons_nws ']' rest (by decide)]
          rfl
        | cons x tl =>
          obtain ⟨c0, cs0, hI, hIw, hIbr, _⟩ := stringifyItems_head (ind ++ gap2) x tl
          have hsh : stringifyVal ind (Json.arr (.cons x tl)) ++ rest
              = '[' :: ('\n' :: ((ind ++ gap2)
                ++ (stringifyItems (ind ++ gap2) (.cons x tl)
                  ++ ('\n' :: (ind ++ (']' :: rest)))))) := by
            rw [sv_arr_cons]
            simp [List.append_assoc]
          rw [hsh, pv_step, if_neg (by decide), if_neg (by decide),
            if_neg (by decide), if_neg (by decide), if_pos rfl,
            skipWs_cons_ws '\n' _ (by decide),
            skipWs_append _ _ (ws_ind_gap ind hind),
            skipWs_headed _ _ c0 cs0 hI hIw]
          rw [hI]
          simp only [List.cons_append]
          rw [if_neg hIbr]
          rw [← List.cons_append, ← hI,
            IHe x tl (ind ++ gap2) ind rest hwf2 hfs2 (ws_ind_gap ind hind) hind]
      | obj fs =>
        have hwf2 : fs.wfFields = true := by simpa [Json.wf] using hwf
        have hfs2 : fs.fsizeFields ≤ fuel := by
          simp only [Json.fsize] at hfs
          omega
        cases fs with
        | nil =>
          rw [sv_obj_nil]
          simp only [List.cons_append, List.nil_append]
          rw [pv_step, if_neg (by decide), if_neg (by decide), if_neg (by decide),
            if_neg (by decide), if_neg (by decide), if_pos rfl,
            skipWs_cons_nws '\x7d' rest (by decide)]
          rfl
        | cons k v tl =>
          obtain ⟨cs1, hF⟩ := stringifyFields_head (ind ++ gap2) k v tl
          have hFw : isWs '"' = false := by decide
          have hsh : stringifyVal ind (Json.obj (.cons k v tl)) ++ rest
              = '\x7b' :: ('\n' :: ((ind ++ gap2)
                ++ (stringifyFields (ind ++ gap2) (.cons k v tl)
                  ++ ('\n' :: (ind ++ ('\x7d' :: rest)))))) := by
            rw [sv_obj_cons]
            simp [List.append_assoc]
          rw [hsh, pv_step, if_neg (by decide), if_neg (by decide),
            if_neg (by decide), if_neg (by decide), if_neg (by decide),
            if_pos rfl,
            skipWs_cons_ws '\n' _ (by decide),
            skipWs_append _ _ (ws_ind_gap ind hind),
            skipWs_headed _ _ '"' cs1 hF hFw]
          rw [hF]
          simp only [List.cons_append]
          rw [if_neg (by decide)]
          rw [← List.cons_append, ← hF,
            IHf k v tl .nil (ind ++ gap2) ind rest hwf2 hfs2
              (fun _ _ => rfl) (ws_ind_gap ind hind) hind]
          rfl
    · -- parseElems round trip
      intro x tl ind ind0 rest hwf hfs hind hind0
      have hand : x.wf = true ∧ tl.wfList = true := by
        simpa [JsonList.wfList, Bool.and_eq_true] using hwf
      obtain ⟨hwx, hwtl⟩ := hand
      have hfsx : x.fsize ≤ fuel := by
        have := fsizeList_pos tl
        simp only [JsonList.fsizeList] at hfs
        omega
      cases tl with
      | nil =>
        have hsh : stringifyItems ind (.cons x .nil)
              ++ ('\n' :: (ind0 ++ (']' :: rest)))
            = stringifyVal ind x ++ ('\n' :: (ind0 ++ (']' :: rest))) := by
          rw [si_single]
          simp
        have hIv := IHv x ind ('\n' :: (ind0 ++ (']' :: rest))) hwx hfsx hind
          (by rfl)
        have hsk : skipWs ('\n' :: (ind0 ++ (']' :: rest))) = ']' :: rest := by
          rw [skipWs_cons_ws '\n' _ (by decide), skipWs_append ind0 _ hind0,
            skipWs_cons_nws ']' rest (by decide)]
        rw [hsh, pe_step]
        simp +decide only [hIv, hsk, if_true, if_false]
      | cons y tl2 =>
        obtain ⟨c1, cs1, hI2, hI2w, hI2br, _⟩ := stringifyItems_head ind y tl2
        have hsh : stringifyItems ind (.cons x (.cons y tl2))
              ++ ('\n' :: (ind0 ++ (']' :: rest)))
            = stringifyVal ind x
              ++ (',' :: ('\n' :: (ind
                ++ (stringifyItems ind (.cons y tl2)
                  ++ ('\n' :: (ind0 ++ (']' :: rest))))))) := by
          rw [si_cons]
          simp [List.append_assoc]
        have hfs2 : (JsonList.cons y tl2).fsizeList ≤ fuel := by
          have := fsize_pos x
          simp only [JsonList.fsizeList] at hfs ⊢
          omega
        have hIv := IHv x ind
          (',' :: ('\n' :: (ind ++ (stringifyItems ind (.cons y tl2)
            ++ ('\n' :: (ind0 ++ (']' :: rest))))))) hwx hfsx hind (by rfl)
        have hsk1 : skipWs (',' :: ('\n' :: (ind
              ++ (stringifyItems ind (.cons y tl2)
                ++ ('\n' :: (ind0 ++ (']' :: rest)))))))
            = ',' :: ('\n' :: (ind ++ (stringifyItems ind (.cons y tl2)
                ++ ('\n' :: (ind0 ++ (']' :: rest)))))) :=
          skipWs_cons_nws _ _ (by decide)
        have hsk2 : skipWs ('\n' :: (ind ++ (stringifyItems ind (.cons y tl2)
              ++ ('\n' :: (ind0 ++ (']' :: rest))))))
            = stringifyItems ind (.cons y tl2)
              ++ ('\n' :: (ind0 ++ (']' :: rest))) := by
          rw [skipWs_cons_ws '\n' _ (by decide), skipWs_append ind _ hind,
            skipWs_headed _ _ c1 cs1 hI2 hI2w]
        have hIe := IHe y tl2 ind ind0 rest hwtl hfs2 hind hind0
        rw [hsh, pe_step]
        simp +decide only [hIv, hsk1, hsk2, hIe, if_true, if_false]
    · -- parseFields round trip
      intro k v tl acc ind ind0 rest hwf hfs hfresh hind hind0
      have hand : (tl.hasKey k = false ∧ v.wf = true) ∧ tl.wfFields = true := by
        simpa [JsonFields.wfFields, Bool.and_eq_true, Bool.not_eq_true'] using hwf
      obtain ⟨⟨hk, hwv⟩, hwtl⟩ := hand
      have hklen : k.data.length + 1 ≤ fuel := by
        have h1 := fsize_pos v
        have h2 := fsizeFields_pos tl
        have hsd : k.length = k.data.length := rfl
        simp only [JsonFields.fsizeFields] at hfs
        omega
      have hfsv : v.fsize ≤ fuel := by
        have := fsizeFields_pos tl
        simp only [JsonFields.fsizeFields] at hfs
        omega
      have hsetacc : acc.set k v = acc.append (.cons k v .nil) :=
        JsonFields.set_fresh acc k v
          (hfresh k (by simp [JsonFields.hasKey]))
      obtain ⟨cv, csv, hV, hVw, _, _⟩ := stringifyVal_head ind v
      have hmk : String.mk k.data = k := rfl
      cases tl with
      | nil =>
        have hsh : stringifyFields ind (.cons k v .nil)
              ++ ('\n' :: (ind0 ++ ('\x7d' :: rest)))
            = '"' :: (escapeList k.data
              ++ '"' :: (':' :: (' ' :: (stringifyVal ind v
                ++ ('\n' :: (ind0 ++ ('\x7d' :: rest))))))) := by
          rw [sf_single]
          simp [quoteJson, List.append_assoc]
        have hsk1 : skipWs (':' :: (' ' :: (stringifyVal ind v
              ++ ('\n' :: (ind0 ++ ('\x7d' :: rest))))))
            = ':' :: (' ' :: (stringifyVal ind v
              ++ ('\n' :: (ind0 ++ ('\x7d' :: rest))))) :=
          skipWs_cons_nws _ _ (by decide)
        have hsk2 : skipWs (' ' :: (stringifyVal ind v
              ++ ('\n' :: (ind0 ++ ('\x7d' :: rest)))))
            = stringifyVal ind v ++ ('\n' :: (ind0 ++ ('\x7d' :: rest))) := by
          rw [skipWs_cons_ws ' ' _ (by decide),
            skipWs_headed _ _ cv csv hV hVw]
        have hIv := IHv v ind ('\n' :: (ind0 ++ ('\x7d' :: rest))) hwv hfsv hind
          (by rfl)
        have hsk3 : skipWs ('\n' :: (ind0 ++ ('\x7d' :: rest)))
            = '\x7d' :: rest := by
          rw [skipWs_cons_ws '\n' _ (by decide), skipWs_append ind0 _ hind0,
            skipWs_cons_nws '\x7d' rest (by decide)]
        rw [hsh, pf_step, if_pos rfl,
          parseStringBody_escape k.data fuel _ hklen]
        simp +decide only [hsk1, hsk2, hIv, hsk3, hmk, hsetacc, if_true, if_false]
      | cons k2 v2 tl2 =>
        obtain ⟨csF, hF2⟩ := stringifyFields_head ind k2 v2 tl2
        have hsh : stringifyFields ind (.cons k v (.cons k2 v2 tl2))
              ++ ('\n' :: (ind0 ++ ('\x7d' :: rest)))
            = '"' :: (escapeList k.data
              ++ '"' :: (':' :: (' ' :: (stringifyVal ind v
                ++ (',' :: ('\n' :: (ind
                  ++ (stringifyFields ind (.cons k2 v2 tl2)
                    ++ ('\n' :: (ind0 ++ ('\x7d' :: rest))))))))))) := by
          rw [sf_cons]
          simp [quoteJson, List.append_assoc]
        have hfs2 : (JsonFields.cons k2 v2 tl2).fsizeFields ≤ fuel := by
          have := fsize_pos v
          simp only [JsonFields.fsizeFields] at hfs ⊢
          omega
        have hfresh2 : ∀ k3, (JsonFields.cons k2 v2 tl2).hasKey k3 = true →
            (acc.append (.cons k v .nil)).hasKey k3 = false := by
          intro k3 h3
          rw [JsonFields.hasKey_append]
          have ha : acc.hasKey k3 = false := by
            refine hfresh k3 ?_
            simp [JsonFields.hasKey] at h3 ⊢
            exact Or.inr h3
          have hk3 : k ≠ k3 := by
            intro he
            subst he
            rw [hk] at h3
            exact absurd h3 (by decide)
          have hb : (JsonFields.cons k v .nil).hasKey k3 = false := by
            simp [JsonFields.hasKey, hk3]
          rw [ha, hb]
          rfl
        have hsk1 : skipWs (':' :: (' ' :: (stringifyVal ind v
              ++ (',' :: ('\n' :: (ind
                ++ (stringifyFields ind (.cons k2 v2 tl2)
                  ++ ('\n' :: (ind0 ++ ('\x7d' :: rest))))))))))
            = ':' :: (' ' :: (stringifyVal ind v
              ++ (',' :: ('\n' :: (ind
                ++ (stringifyFields ind (.cons k2 v2 tl2)
                  ++ ('\n' :: (ind0 ++ ('\x7d' :: rest))))))))) :=
          skipWs_cons_nws _ _ (by decide)
        have hsk2 : skipWs (' ' :: (stringifyVal ind v
              ++ (',' :: ('\n' :: (ind
                ++ (stringifyFields ind (.cons k2 v2 tl2)
                  ++ ('\n' :: (ind0 ++ ('\x7d' :: rest)))))))))
            = stringifyVal ind v
              ++ (',' :: ('\n' :: (ind
                ++ (stringifyFields ind (.cons k2 v2 tl2)
                  ++ ('\n' :: (ind0 ++ ('\x7d' :: rest))))))) := by
          rw [skipWs_cons_ws ' ' _ (by decide),
            skipWs_headed _ _ cv csv hV hVw]
        have hIv := IHv v ind
          (',' :: ('\n' :: (ind ++ (stringifyFields ind (.cons k2 v2 tl2)
            ++ ('\n' :: (ind0 ++ ('\x7d' :: rest))))))) hwv hfsv hind (by rfl)
        have hsk3 : skipWs (',' :: ('\n' :: (ind
              ++ (stringifyFields ind (.cons k2 v2 tl2)
                ++ ('\n' :: (ind0 ++ ('\x7d' :: rest)))))))
            = ',' :: ('\n' :: (ind ++ (stringifyFields ind (.cons k2 v2 tl2)
                ++ ('\n' :: (ind0 ++ ('\x7d' :: rest)))))) :=
          skipWs_cons_nws _ _ (by decide)
        have hsk4 : skipWs ('\n' :: (ind
              ++ (stringifyFields ind (.cons k2 v2 tl2)
                ++ ('\n' :: (ind0 ++ ('\x7d' :: rest))))))
            = stringifyFields ind (.cons k2 v2 tl2)
              ++ ('\n' :: (ind0 ++ ('\x7d' :: rest))) := by
          rw [skipWs_cons_ws '\n' _ (by decide), skipWs_append ind _ hind,
            skipWs_headed _ _ '"' csF hF2 (by decide)]
        have hIf := IHf k2 v2 tl2 (acc.append (.cons k v .nil)) ind ind0 rest
          hwtl hfs2 hfresh2 hind hind0
        rw [hsh, pf_step, if_pos rfl,
          parseStringBody_escape k.data fuel _ hklen]
        simp +decide only [hsk1, hsk2, hIv, hsk3, hsk4, hmk, hsetacc, hIf,
          JsonFields.append_assoc, if_true, if_false]
        rfl

/-- Round trip of the codec on any well-formed document:
`JSON.parse(JSON.stringify(j, null, 2))` returns `j` itself. -/
theorem jsonParse_stringify (j : Json) (hwf : j.wf = true) :
    jsonParse (jsonStringify j) = some j := by
  obtain ⟨c, cs, hP, hws, _, _⟩ := stringifyVal_head [] j
  have hdata : (jsonStringify j).data = stringifyVal [] j := rfl
  have hfuel : j.fsize ≤ (stringifyVal [] j).length + 1 := by
    have := fsize_le_len [] j
    omega
  have hskip : skipWs (stringifyVal [] j) = stringifyVal [] j := by
    rw [hP]
    exact skipWs_cons_nws _ _ hws
  have hpv : parseValue ((stringifyVal [] j).length + 1) (stringifyVal [] j)
      = some (j, []) := by
    have h := (parse_print ((stringifyVal [] j).length + 1)).1 j [] [] hwf hfuel
      (by simp) rfl
    simpa using h
  unfold jsonParse
  rw [hdata, hskip, hpv]
  rfl

/-! ## Aggregator lemmas -/

theorem applyGains_cons (prev : List (String × Int)) (k : String) (v : Int)
    (rest : List (String × Int)) :
    applyGains prev ((k, v) :: rest)
      = applyGains (objSet prev k (statVal prev k + v)) rest := rfl

theorem objGet_objSet_self (o : List (String × Int)) (k : String) (v : Int) :
    objGet (objSet o k v) k = some v := by
  induction o with
  | nil => simp [objSet, objGet]
  | cons p rest ih =>
    obtain ⟨k2, w⟩ := p
    by_cases h : k2 = k
    · simp [objSet, objGet, h]
    · simp [objSet, objGet, h, ih]

theorem objGet_objSet_ne (o : List (String × Int)) (k k2 : String) (v : Int)
    (h : k ≠ k2) : objGet (objSet o k v) k2 = objGet o k2 := by
  induction o with
  | nil => simp [objSet, objGet, h]
  | cons p rest ih =>
    obtain ⟨k3, w⟩ := p
    by_cases h3 : k3 = k
    · subst h3
      simp [objSet, objGet, h]
    · simp [objSet, objGet, h3, ih]

theorem objSet_map_fst (o : List (String × Int)) (k : String) (v : Int)
    (h : k ∈ o.map Prod.fst) :
    (objSet o k v).map Prod.fst = o.map Prod.fst := by
  induction o with
  | nil => simp at h
  | cons p rest ih =>
    obtain ⟨k3, w⟩ := p
    by_cases h3 : k3 = k
    · simp [objSet, h3]
    · have hm : k ∈ rest.map Prod.fst := by
        rcases List.mem_map.mp h with ⟨p2, hp2, hfst⟩
        rcases List.mem_cons.mp hp2 with h2 | h2
        · subst h2
          exact absurd hfst h3
        · exact List.mem_map.mpr ⟨p2, h2, hfst⟩
      simp [objSet, h3, ih hm]

theorem objGet_mem (o : List (String × Int)) (k : String) (v : Int)
    (h : objGet o k = some v) : (k, v) ∈ o := by
  induction o with
  | nil => simp [objGet] at h
  | cons p rest ih =>
    obtain ⟨k3, w⟩ := p
    by_cases h3 : k3 = k
    · subst h3
      have hv : w = v := by simpa [objGet] using h
      subst hv
      exact List.mem_cons_self _ _
    · have h2 : objGet rest k = some v := by simpa [objGet, h3] using h
      exact List.mem_cons_of_mem _ (ih h2)

theorem objGet_isSome_of_mem (o : List (String × Int)) (k : String)
    (h : k ∈ o.map Prod.fst) : ∃ v, objGet o k = some v := by
  induction o with
  | nil => simp at h
  | cons p rest ih =>
    obtain ⟨k3, w⟩ := p
    by_cases h3 : k3 = k
    · exact ⟨w, by simp [objGet, h3]⟩
    · have hm : k ∈ rest.map Prod.fst := by
        rcases List.mem_map.mp h with ⟨p2, hp2, hfst⟩
        rcases List.mem_cons.mp hp2 with h2 | h2
        · subst h2
          exact absurd hfst h3
        · exact List.mem_map.mpr ⟨p2, h2, hfst⟩
      obtain ⟨v, hv⟩ := ih hm
      exact ⟨v, by simp [objGet, h3, hv]⟩

theorem applyGains_objGet_notMem : ∀ (g s : List (String × Int)) (k : String),
    k ∉ g.map Prod.fst → objGet (applyGains s g) k = objGet s k := by
  intro g
  induction g with
  | nil =>
    intro s k _
    rfl
  | cons p rest ih =>
    intro s k h
    obtain ⟨k3, w⟩ := p
    have hne : k3 ≠ k := by
      simp at h
      exact fun he => absurd he.symm h.1
    have hnr : k ∉ rest.map Prod.fst := by
      simp at h
      simpa using h.2
    rw [applyGains_cons, ih _ k hnr, objGet_objSet_ne _ _ _ _ hne]

theorem applyGains_objGet_mem : ∀ (g s : List (String × Int)) (k : String)
    (v : Int), (g.map Prod.fst).Nodup → objGet g k = some v →
    objGet (applyGains s g) k = some (statVal s k + v) := by
  intro g
  induction g with
  | nil =>
    intro s k v _ hget
    simp [objGet] at hget
  | cons p rest ih =>
    intro s k v hnd hget
    obtain ⟨k3, w⟩ := p
    rw [applyGains_cons]
    by_cases h3 : k3 = k
    · subst h3
      have hv : w = v := by simpa [objGet] using hget
      subst hv
      have hnotin : k3 ∉ rest.map Prod.fst := by
        rw [List.map_cons] at hnd
        exact (List.nodup_cons.mp hnd).1
      rw [applyGains_objGet_notMem rest _ k3 hnotin, objGet_objSet_self]
    · have hget2 : objGet rest k = some v := by simpa [objGet, h3] using hget
      have hnd2 : (rest.map Prod.fst).Nodup := by
        rw [List.map_cons] at hnd
        exact (List.nodup_cons.mp hnd).2
      rw [ih _ k v hnd2 hget2]
      have hsv : statVal (objSet s k3 (statVal s k3 + w)) k = statVal s k := by
        simp [statVal, objGet_objSet_ne _ _ _ _ h3]
      rw [hsv]

theorem applyGains_statVal (s g : List (String × Int)) (k : String)
    (hnd : (g.map Prod.fst).Nodup) (hmem : k ∈ g.map Prod.fst) :
    statVal (applyGains s g) k = statVal s k + statVal g k := by
  obtain ⟨v, hv⟩ := objGet_isSome_of_mem g k hmem
  have h := applyGains_objGet_mem g s k v hnd hv
  simp [statVal, h, hv]

theorem applyGains_map_fst : ∀ (g s : List (String × Int)),
    (∀ k ∈ g.map Prod.fst, k ∈ s.map Prod.fst) →
    (applyGains s g).map Prod.fst = s.map Prod.fst := by
  intro g
  induction g with
  | nil =>
    intro s _
    rfl
  | cons p rest ih =>
    intro s hsub
    obtain ⟨k3, w⟩ := p
    rw [applyGains_cons]
    have hk3 : k3 ∈ s.map Prod.fst := hsub k3 (by simp)
    have hset := objSet_map_fst s k3 (statVal s k3 + w) hk3
    rw [ih _ ?_, hset]
    intro k hk
    rw [hset]
    exact hsub k (by simp [hk])

/-! ## Remaining helpers for the claims -/

theorem JsonFields.get_none_of_not_hasKey (fs : JsonFields) (k : String)
    (h : fs.hasKey k = false) : fs.get k = none := by
  cases fs with
  | nil => rfl
  | cons k2 v tl =>
    simp only [JsonFields.hasKey] at h
    by_cases h2 : k2 = k
    · simp [h2] at h
    · simp only [JsonFields.get, if_neg h2]
      exact JsonFields.get_none_of_not_hasKey tl k (by simpa [h2] using h)

theorem Json.field_none_of_not_hasKey (d : Json) (k : String)
    (h : d.hasKey k = false) : d.field k = none := by
  cases d with
  | obj fs => exact JsonFields.get_none_of_not_hasKey fs k h
  | null => rfl
  | bool b => rfl
  | num n => rfl
  | str s => rfl
  | arr xs => rfl

theorem fetch_step (env : Nat → Nat) (i r delay : Nat) :
    fetchWithBackoff env i (r + 1) delay
      = (if 200 ≤ env i ∧ env i ≤ 299 then (.success i, [])
         else if env i = 429 then
           ((fetchWithBackoff env (i + 1) r (delay * 2)).1,
             delay :: (fetchWithBackoff env (i + 1) r (delay * 2)).2)
         else (.failure (env i), [])) := rfl

theorem fetch_zero (env : Nat → Nat) (i delay : Nat) :
    fetchWithBackoff env i 0 delay
      = (if 200 ≤ env i ∧ env i ≤ 299 then (.success i, [])
         else if env i = 429 then (.failure (env i), [])
         else (.failure (env i), [])) := rfl

theorem fetch_429_step (env : Nat → Nat) (i r delay : Nat) (h : env i = 429) :
    fetchWithBackoff env i (r + 1) delay
      = ((fetchWithBackoff env (i + 1) r (delay * 2)).1,
        delay :: (fetchWithBackoff env (i + 1) r (delay * 2)).2) := by
  rw [fetch_step, if_neg (by rw [h]; omega), if_pos h]

theorem fetch_fail (env : Nat → Nat) (i retries delay : Nat)
    (h1 : ¬(200 ≤ env i ∧ env i ≤ 299)) (h2 : env i ≠ 429) :
    fetchWithBackoff env i retries delay = (.failure (env i), []) := by
  cases retries with
  | zero => rw [fetch_zero, if_neg h1, if_neg h2]
  | succ r => rw [fetch_step, if_neg h1, if_neg h2]

theorem fetch_congr : ∀ (retries : Nat) (env env2 : Nat → Nat) (i delay : Nat),
    (∀ j, i ≤ j → j ≤ i + retries → env j = env2 j) →
    fetchWithBackoff env i retries delay
      = fetchWithBackoff env2 i retries delay := by
  intro retries
  induction retries with
  | zero =>
    intro env env2 i delay h
    have hi := h i (le_refl i) (by omega)
    rw [fetch_zero, fetch_zero, hi]
  | succ r ih =>
    intro env env2 i delay h
    have hi := h i (le_refl i) (by omega)
    rw [fetch_step, fetch_step, hi,
      ih env env2 (i + 1) (delay * 2) (fun j hj1 hj2 => h j (by omega) (by omega))]

theorem insertionSort_eq_self {α : Type} (r : α → α → Prop) [DecidableRel r]
    (l : List α) (h : ∀ x ∈ l, ∀ y ∈ l, r x y) : List.insertionSort r l = l := by
  induction l with
  | nil => rfl
  | cons x tl ih =>
    have htl : List.insertionSort r tl = tl :=
      ih fun a ha b hb =>
        h a (List.mem_cons_of_mem x ha) b (List.mem_cons_of_mem x hb)
    rw [List.insertionSort, htl]
    cases tl with
    | nil => rfl
    | cons y tl2 =>
      rw [List.orderedInsert,
        if_pos (h x (List.mem_cons_self x _) y
          (List.mem_cons_of_mem x (List.mem_cons_self y tl2)))]

theorem hasFiveKeys_of_eq (o : List (String × Int))
    (h : o.map Prod.fst = fiveKeys) (hnd : (o.map Prod.fst).Nodup) :
    HasFiveKeys o := ⟨hnd, fun k => by rw [h]⟩

theorem handleImport_parse (text : String) (st : AppState) (data : Json)
    (hp : jsonParse text = some data) :
    handleImport text st = importData data st := by
  unfold handleImport
  rw [hp]

/-! ## The claims -/

/-- C1: for every pair of inputs, the AI gain estimator never propagates an
error to its caller: whichever stage fails — the network call (a throw out
of `fetchWithBackoff`), reading the response body, extracting the
candidate text, or parsing that text as JSON — `callAiModel` returns the
all-zero `GainDelta`, and therefore the submit handler always produces an
entry once the blank-input validation has passed. -/
theorem claim_C1 :
    (∀ (env : Nat → Nat) (body : Nat → Option Json) (st : Nat),
      (fetchWithBackoff env 0 5 1000).1 = .failure st →
      callAiModel env body = zeroGains) ∧
    (∀ (env : Nat → Nat) (body : Nat → Option Json) (i : Nat),
      (fetchWithBackoff env 0 5 1000).1 = .success i → body i = none →
      callAiModel env body = zeroGains) ∧
    (∀ (env : Nat → Nat) (body : Nat → Option Json) (i : Nat) (result : Json),
      (fetchWithBackoff env 0 5 1000).1 = .success i → body i = some result →
      extractCandidateText result = none → callAiModel env body = zeroGains) ∧
    (∀ (env : Nat → Nat) (body : Nat → Option Json) (i : Nat) (result : Json)
        (s : String),
      (fetchWithBackoff env 0 5 1000).1 = .success i → body i = some result →
      extractCandidateText result = some s → jsonParse s = none →
      callAiModel env body = zeroGains) ∧
    (∀ (id date activity feeling : String) (env : Nat → Nat)
        (body : Nat → Option Json),
      activity.trim ≠ "" → feeling.trim ≠ "" →
      handleSubmit id date activity feeling env body
        = some ⟨id, date, activity, feeling, callAiModel env body⟩) := by
  refine ⟨?_, ?_, ?_, ?_, ?_⟩
  · intro env body st h
    rcases hfb : fetchWithBackoff env 0 5 1000 with ⟨res, ws⟩
    rw [hfb] at h
    simp only [] at h
    subst h
    unfold callAiModel
    rw [hfb]
  · intro env body i h hbody
    rcases hfb : fetchWithBackoff env 0 5 1000 with ⟨res, ws⟩
    rw [hfb] at h
    simp only [] at h
    subst h
    unfold callAiModel
    rw [hfb]
    simp only [hbody]
  · intro env body i result h hbody hext
    rcases hfb : fetchWithBackoff env 0 5 1000 with ⟨res, ws⟩
    rw [hfb] at h
    simp only [] at h
    subst h
    unfold callAiModel
    rw [hfb]
    simp only [hbody, hext]
  · intro env body i result s h hbody hext hparse
    rcases hfb : fetchWithBackoff env 0 5 1000 with ⟨res, ws⟩
    rw [hfb] at h
    simp only [] at h
    subst h
    unfold callAiModel
    rw [hfb]
    simp only [hbody, hext, hparse]
  · intro id date activity feeling env body h1 h2
    simp [handleSubmit, h1, h2]

/-- Witness for C1 at a concrete input: an endpoint that always answers
HTTP 500 makes the fetch throw, and the estimator returns the all-zero
gains. -/
theorem claim_C1_witness :
    callAiModel (fun _ => 500) (fun _ => none) = zeroGains :=
  claim_C1.1 (fun _ => 500) (fun _ => none) 500 (by decide)

/-- C2 refutation: an endpoint that answers HTTP 429 on the first five
calls and 200 afterwards gives five consecutive 429s, yet
`fetchWithBackoff` does not raise a terminal failure — after the waits
1s, 2s, 4s, 8s, 16s it makes a sixth call, which succeeds. -/
theorem claim_C2_counterexample :
    ((fun i => if i < 5 then 429 else 200) : Nat → Nat) 0 = 429 ∧
    ((fun i => if i < 5 then 429 else 200) : Nat → Nat) 1 = 429 ∧
    ((fun i => if i < 5 then 429 else 200) : Nat → Nat) 2 = 429 ∧
    ((fun i => if i < 5 then 429 else 200) : Nat → Nat) 3 = 429 ∧
    ((fun i => if i < 5 then 429 else 200) : Nat → Nat) 4 = 429 ∧
    fetchWithBackoff (fun i => if i < 5 then 429 else 200) 0 5 1000
      = (.success 5, [1000, 2000, 4000, 8000, 16000]) := by decide

/-- C2 (amended): under the default policy (5 retries, initial delay
1000 ms), if the endpoint answers HTTP 429 on six consecutive calls (the
initial call and all five retries), `fetchWithBackoff` raises a terminal
request-failure after waiting the backoff sequence
1s, 2s, 4s, 8s, 16s. -/
theorem claim_C2 (env : Nat → Nat) (h : ∀ i, i ≤ 5 → env i = 429) :
    fetchWithBackoff env 0 5 1000
      = (.failure 429, [1000, 2000, 4000, 8000, 16000]) := by
  rw [fetch_congr 5 env (fun _ => 429) 0 1000
    (fun j h1 h2 => h j (by omega))]
  decide

/-- Witness for C2 at the concrete always-429 endpoint. -/
theorem claim_C2_witness :
    fetchWithBackoff (fun _ => 429) 0 5 1000
      = (.failure 429, [1000, 2000, 4000, 8000, 16000]) :=
  claim_C2 (fun _ => 429) (fun _ _ => rfl)

/-- C3: with the default policy, two 429s followed by a success make
`fetchWithBackoff` succeed on the third call with total backoff
1000 + 2000 ms; each 429 with retries remaining waits the current delay,
doubles it and decrements the budget; any non-ok status other than 429
fails immediately with no waits. -/
theorem claim_C3 :
    (fetchWithBackoff (fun i => if i < 2 then 429 else 200) 0 5 1000
        = (.success 2, [1000, 2000])
      ∧ (fetchWithBackoff (fun i => if i < 2 then 429 else 200) 0 5 1000).2.sum
        = 1000 + 2000) ∧
    (∀ (env : Nat → Nat) (i r delay : Nat), env i = 429 →
      fetchWithBackoff env i (r + 1) delay
        = ((fetchWithBackoff env (i + 1) r (delay * 2)).1,
          delay :: (fetchWithBackoff env (i + 1) r (delay * 2)).2)) ∧
    (∀ (env : Nat → Nat) (i retries delay : Nat),
      ¬(200 ≤ env i ∧ env i ≤ 299) → env i ≠ 429 →
      fetchWithBackoff env i retries delay = (.failure (env i), [])) :=
  ⟨⟨by decide, by decide⟩, fetch_429_step, fetch_fail⟩

/-- Witness for C3 at a concrete input: a 500 status fails immediately
with no backoff waits. -/
theorem claim_C3_witness :
    fetchWithBackoff (fun _ => 500) 0 5 1000 = (.failure 500, []) :=
  claim_C3.2.2 (fun _ => 500) 0 5 1000 (by decide) (by decide)

/-- C4: saving two entries carrying valid gain deltas through the
aggregator adds, for each of the five keys, both deltas to the starting
total. -/
theorem claim_C4 (entries : List Entry) (stats : List (String × Int))
    (e1 e2 : Entry) (_hs : HasFiveKeys stats) (h1 : ValidGainDelta e1.gains)
    (h2 : ValidGainDelta e2.gains) :
    ∀ k ∈ fiveKeys,
      statVal (handleSaveEntry (handleSaveEntry entries stats e1).1
          (handleSaveEntry entries stats e1).2 e2).2 k
        = statVal stats k + statVal e1.gains k + statVal e2.gains k := by
  intro k hk
  have hm1 : k ∈ e1.gains.map Prod.fst := (h1.1.2 k).mpr hk
  have hm2 : k ∈ e2.gains.map Prod.fst := (h2.1.2 k).mpr hk
  show statVal (applyGains (applyGains stats e1.gains) e2.gains) k = _
  rw [applyGains_statVal _ _ _ h2.1.1 hm2, applyGains_statVal _ _ _ h1.1.1 hm1]

/-- Witness for C4 at concrete entries against the initial all-zero
stats. -/
theorem claim_C4_witness :
    statVal (handleSaveEntry
        (handleSaveEntry [] initialStats
          ⟨"id1", "2025-01-01", "a1", "f1",
            [("diligence", 1), ("knowledge", 2), ("courage", 0),
             ("understanding", 3), ("expression", 5)]⟩).1
        (handleSaveEntry [] initialStats
          ⟨"id1", "2025-01-01", "a1", "f1",
            [("diligence", 1), ("knowledge", 2), ("courage", 0),
             ("understanding", 3), ("expression", 5)]⟩).2
        ⟨"id2", "2025-01-02", "a2", "f2",
          [("diligence", 0), ("knowledge", 4), ("courage", 1),
           ("understanding", 0), ("expression", 2)]⟩).2 ("knowledge")
      = statVal initialStats ("knowledge")
        + statVal [("diligence", 1), ("knowledge", 2), ("courage", 0),
            ("understanding", 3), ("expression", 5)] ("knowledge")
        + statVal [("diligence", 0), ("knowledge", 4), ("courage", 1),
            ("understanding", 0), ("expression", 2)] ("knowledge") :=
  claim_C4 [] initialStats
    ⟨"id1", "2025-01-01", "a1", "f1",
      [("diligence", 1), ("knowledge", 2), ("courage", 0),
       ("understanding", 3), ("expression", 5)]⟩
    ⟨"id2", "2025-01-02", "a2", "f2",
      [("diligence", 0), ("knowledge", 4), ("courage", 1),
       ("understanding", 0), ("expression", 2)]⟩
    (hasFiveKeys_of_eq _ rfl (by decide))
    ⟨hasFiveKeys_of_eq _ rfl (by decide), by decide⟩
    ⟨hasFiveKeys_of_eq _ rfl (by decide), by decide⟩
    ("knowledge") (by decide)

/-- C5: exporting the state and immediately importing the produced text
restores both persisted pieces of state exactly, for every state whose
export document is valid (the two values are truthy and, being JavaScript
values, have no duplicate object keys). -/
theorem claim_C5 (st target : AppState) (exportDate : String)
    (hwfE : st.allEntries.wf = true) (hwfS : st.playerStats.wf = true)
    (hte : st.allEntries.truthy = true) (hts : st.playerStats.truthy = true) :
    handleImport (handleExport st exportDate) target = (st, .success) := by
  have hwfdoc : (exportDoc st exportDate).wf = true := by
    simp +decide [exportDoc, Json.wf, JsonFields.wfFields, JsonFields.hasKey,
      hwfE, hwfS]
  have hparse : jsonParse (handleExport st exportDate)
      = some (exportDoc st exportDate) := jsonParse_stringify _ hwfdoc
  rw [handleImport_parse _ _ _ hparse]
  unfold importData
  have hae : (exportDoc st exportDate).field ("allEntries")
      = some st.allEntries := by
    simp +decide [exportDoc, Json.field, JsonFields.get]
  have hps : (exportDoc st exportDate).field ("playerStats")
      = some st.playerStats := by
    simp +decide [exportDoc, Json.field, JsonFields.get]
  rw [hae, hps]
  simp [hte, hts]

/-- Witness for C5 at a concrete state. -/
theorem claim_C5_witness :
    handleImport
        (handleExport
          ⟨Json.arr .nil, Json.obj (.cons ("diligence") (Json.num 0) .nil)⟩
          ("2025-10-12"))
        ⟨Json.null, Json.null⟩
      = (⟨Json.arr .nil, Json.obj (.cons ("diligence") (Json.num 0) .nil)⟩,
          ImportMsg.success) :=
  claim_C5 ⟨Json.arr .nil, Json.obj (.cons ("diligence") (Json.num 0) .nil)⟩
    ⟨Json.null, Json.null⟩ ("2025-10-12") (by decide) (by decide) (by decide)
    (by decide)

/-- C6: an import whose text is unparsable, or whose parsed document
lacks the `allEntries` or the `playerStats` key, reports a failure and
leaves the existing state completely unchanged. -/
theorem claim_C6 (st : AppState) (text : String) :
    (jsonParse text = none → handleImport text st = (st, .failure)) ∧
    (∀ data, jsonParse text = some data →
      data.hasKey ("allEntries") = false ∨ data.hasKey ("playerStats") = false →
      handleImport text st = (st, .failure)) := by
  constructor
  · intro h
    unfold handleImport
    rw [h]
  · intro data hp hkeys
    rw [handleImport_parse _ _ _ hp]
    unfold importData
    rcases hkeys with hk | hk
    · rw [Json.field_none_of_not_hasKey data _ hk]
    · cases hae : data.field ("allEntries") with
      | none => rfl
      | some ae =>
        rw [Json.field_none_of_not_hasKey data _ hk]

/-- Witness for C6 at concrete inputs: unparsable text, and a document
missing `playerStats`. -/
theorem claim_C6_witness :
    handleImport ("not json") ⟨Json.null, Json.null⟩
        = (⟨Json.null, Json.null⟩, ImportMsg.failure) ∧
    handleImport ("\x7b\"allEntries\": []\x7d") ⟨Json.null, Json.null⟩
        = (⟨Json.null, Json.null⟩, ImportMsg.failure) :=
  ⟨(claim_C6 ⟨Json.null, Json.null⟩ ("not json")).1 (by decide),
   (claim_C6 ⟨Json.null, Json.null⟩ ("\x7b\"allEntries\": []\x7d")).2
     (Json.obj (.cons ("allEntries") (Json.arr .nil) .nil)) (by decide)
     (Or.inr (by decide))⟩

/-- C7 refutation: two same-date entries whose ids are not parseable
date strings (`new Date` on them yields an Invalid Date, so the
comparator returns `NaN`, treated as zero by the stable sort) come back
in insertion order — here ascending by id — not ordered by id
descending. -/
theorem claim_C7_counterexample :
    selectedDateEntries (fun _ => none)
        [⟨"entry-a", "2025-01-01", "a1", "f1", []⟩,
         ⟨"entry-b", "2025-01-01", "a2", "f2", []⟩] ("2025-01-01")
      = [⟨"entry-a", "2025-01-01", "a1", "f1", []⟩,
         ⟨"entry-b", "2025-01-01", "a2", "f2", []⟩]
    ∧ strLt ("entry-a") ("entry-b") = true := by
  constructor
  · decide
  · decide

/-- C7 (amended): `selectedDateEntries` returns exactly the entries whose
date equals the selected date — a permutation of the date-filtered
subsequence, never an error — ordered by the stable sort under the
comparator `new Date(b.id) - new Date(a.id)` with `NaN` treated as a tie;
when no id parses as a date (as with the app's generated ids) every
comparison ties and the entries stay in insertion order, not id-descending
order. -/
theorem claim_C7 (dateVal : String → Option Int) (entries : List Entry)
    (d : String) :
    (selectedDateEntries dateVal entries d).Perm
        (entries.filter (fun e => e.date = d)) ∧
    (∀ e, e ∈ selectedDateEntries dateVal entries d
      ↔ e ∈ entries ∧ e.date = d) ∧
    ((∀ e ∈ entries, dateVal e.id = none) →
      selectedDateEntries dateVal entries d
        = entries.filter (fun e => e.date = d)) := by
  refine ⟨List.perm_insertionSort _ _, ?_, ?_⟩
  · intro e
    have hmem : e ∈ selectedDateEntries dateVal entries d
        ↔ e ∈ entries.filter (fun e => e.date = d) :=
      (List.perm_insertionSort _ _).mem_iff
    rw [hmem, List.mem_filter]
    simp
  · intro hnone
    unfold selectedDateEntries
    apply insertionSort_eq_self
    intro x hx y hy
    have hxe : x ∈ entries := (List.mem_filter.mp hx).1
    have hye : y ∈ entries := (List.mem_filter.mp hy).1
    show jsCompare dateVal x y ≤ 0
    simp [jsCompare, hnone x hxe, hnone y hye, nanSub]

/-- Witness for C7 (amended) at a concrete input. -/
theorem claim_C7_witness :
    selectedDateEntries (fun _ => none)
        [⟨"w-id", "2025-02-02", "x", "y", []⟩] ("2025-02-02")
      = List.filter (fun e => e.date = ("2025-02-02" : String))
          [⟨"w-id", "2025-02-02", "x", "y", []⟩] :=
  (claim_C7 (fun _ => none) [⟨"w-id", "2025-02-02", "x", "y", []⟩]
    ("2025-02-02")).2.2 (fun _ _ => rfl)

/-- C8: every attribute set reachable from the all-zero initial state by
saving entries through the aggregator has exactly the five attribute
keys, and no save with a valid gain delta ever decreases a value. -/
theorem claim_C8 : ∀ s, ReachableStats s →
    s.map Prod.fst = fiveKeys ∧
    ∀ g, ValidGainDelta g → ∀ k,
      statVal s k ≤ statVal (applyGains s g) k := by
  intro s hreach
  have hkeys : s.map Prod.fst = fiveKeys := by
    induction hreach with
    | init => rfl
    | save s g hs hg ih =>
      rw [applyGains_map_fst g s ?_, ih]
      intro k hk
      rw [ih]
      exact (hg.1.2 k).mp hk
  refine ⟨hkeys, ?_⟩
  intro g hg k
  by_cases hk : k ∈ g.map Prod.fst
  · rw [applyGains_statVal s g k hg.1.1 hk]
    obtain ⟨v, hvg⟩ := objGet_isSome_of_mem g k hk
    have hv0 : 0 ≤ v := (hg.2 (k, v) (objGet_mem g k v hvg)).1
    have hsv : statVal g k = v := by simp [statVal, hvg]
    omega
  · have heq : statVal (applyGains s g) k = statVal s k := by
      rw [statVal, statVal, applyGains_objGet_notMem g s k hk]
    rw [heq]

/-- Witness for C8 at the initial state. -/
theorem claim_C8_witness : initialStats.map Prod.fst = fiveKeys :=
  (claim_C8 initialStats ReachableStats.init).1

theorem useLocalStorageInit_found (s : String) (defaultValue : Json) :
    useLocalStorageInit (.found s) defaultValue
      = (if s = "" then defaultValue
         else
           match jsonParse s with
           | some j => j
           | none => defaultValue) := rfl

/-- C9: the `useLocalStorage` initializer returns the default when the
store is unavailable (reading throws), when the key is absent, and when
the stored text fails to parse as JSON; being a total function of the
read outcome, it never raises to the caller. -/
theorem claim_C9 (defaultValue : Json) :
    useLocalStorageInit .unavailable defaultValue = defaultValue ∧
    useLocalStorageInit .absent defaultValue = defaultValue ∧
    ∀ s, jsonParse s = none →
      useLocalStorageInit (.found s) defaultValue = defaultValue := by
  refine ⟨rfl, rfl, ?_⟩
  intro s h
  rw [useLocalStorageInit_found]
  by_cases hs : s = ""
  · rw [if_pos hs]
  · rw [if_neg hs, h]

/-- Witness for C9 at a concrete unparsable stored text. -/
theorem claim_C9_witness :
    useLocalStorageInit (.found ("not-json")) Json.null = Json.null :=
  (claim_C9 Json.null).2.2 ("not-json") (by decide)

/-- C10: the import shape check tests truthiness, not key presence: a
document carrying both keys with a falsy value is rejected with the state
unchanged, while any document with two truthy values — with no deeper
schema check — replaces the whole state. -/
theorem claim_C10 (st : AppState) (text : String) (data : Json)
    (hp : jsonParse text = some data) :
    (data.hasKey ("allEntries") = true → data.hasKey ("playerStats") = true →
      (truthyOpt (data.field ("allEntries")) = false
        ∨ truthyOpt (data.field ("playerStats")) = false) →
      handleImport text st = (st, .failure)) ∧
    (∀ ae ps, data.field ("allEntries") = some ae →
      data.field ("playerStats") = some ps →
      ae.truthy = true → ps.truthy = true →
      handleImport text st = ((⟨ae, ps⟩ : AppState), .success)) := by
  constructor
  · intro _ _ hfalsy
    rw [handleImport_parse _ _ _ hp]
    unfold importData
    cases hae : data.field ("allEntries") with
    | none => rfl
    | some ae =>
      cases hps : data.field ("playerStats") with
      | none => rfl
      | some ps =>
        have hcond : ¬(ae.truthy = true ∧ ps.truthy = true) := by
          rcases hfalsy with hf | hf
          · rw [hae] at hf
            simp [truthyOpt] at hf
            intro hc
            rw [hc.1] at hf
            exact absurd hf (by decide)
          · rw [hps] at hf
            simp [truthyOpt] at hf
            intro hc
            rw [hc.2] at hf
            exact absurd hf (by decide)
        simp [hcond]
  · intro ae ps hae hps htae htps
    rw [handleImport_parse _ _ _ hp]
    unfold importData
    rw [hae, hps]
    simp [htae, htps]

/-- Witness for C10 at concrete inputs: a falsy `allEntries` is rejected,
two truthy junk values are accepted wholesale. -/
theorem claim_C10_witness :
    handleImport ("\x7b\"allEntries\": null, \"playerStats\": 1\x7d")
        ⟨Json.num 7, Json.num 8⟩
      = (⟨Json.num 7, Json.num 8⟩, ImportMsg.failure) ∧
    handleImport ("\x7b\"allEntries\": 1, \"playerStats\": 2\x7d")
        ⟨Json.num 7, Json.num 8⟩
      = (⟨Json.num 1, Json.num 2⟩, ImportMsg.success) :=
  ⟨(claim_C10 ⟨Json.num 7, Json.num 8⟩
      ("\x7b\"allEntries\": null, \"playerStats\": 1\x7d")
      (Json.obj (.cons ("allEntries") Json.null
        (.cons ("playerStats") (Json.num 1) .nil))) (by decide)).1
      (by decide) (by decide) (Or.inl (by decide)),
   (claim_C10 ⟨Json.num 7, Json.num 8⟩
      ("\x7b\"allEntries\": 1, \"playerStats\": 2\x7d")
      (Json.obj (.cons ("allEntries") (Json.num 1)
        (.cons ("playerStats") (Json.num 2) .nil))) (by decide)).2
      (Json.num 1) (Json.num 2) (by decide) (by decide) (by decide)
      (by decide)⟩

end PersonaLife
